import Mathlib

/-!
Verification of the braid repository (maze-exploration game with off-chain
state channels) against its natural-language specification.

The Rust sources are shallowly embedded:
* `src/braid/src/blockchain/state_channel.rs` — `State`, `StateChannel` and
  its operations (`new`, `sign_state`, `update_state`, `serialize_state`,
  `deserialize_state`);
* `src/braid/src/blockchain/transactions.rs` — `BlockchainTransaction` and
  its factory functions;
* `src/braid/src/dungeon/maze.rs` — `Cell`, `Maze`, `Maze::new`,
  `Maze::generate`, `Maze::get_unvisited_neighbors`, `Maze::remove_wall`,
  `Maze::get_masked_maze`.

Modelling conventions:
* Byte strings are `List Nat` with every entry below 256 by construction.
* Rust `String` is Lean `String`; its bincode byte payload is modelled as the
  list of code points (`strBytes`), which is exactly the UTF-8 byte string
  whenever all characters are ASCII; round-trip theorems that depend on this
  carry an ASCII hypothesis.
* `bincode` (the legacy fixint configuration used by `bincode::serialize` /
  `bincode::deserialize`) encodes `u64`/`usize` as 8 little-endian bytes and
  length-prefixes strings, vectors and byte buffers with a `u64`.
* Rust code that can panic (`unwrap` on a decode error, index out of bounds)
  is embedded with `Option`, `none` marking exactly the panicking executions.
* `f64` fields that are only stored and copied, never used in floating-point
  arithmetic by the code under scrutiny (transaction amounts), are modelled
  as `ℚ`.
* Randomness (`rand::thread_rng`) is modelled by universally quantified
  choice data: the start cell of maze generation and a `Nat → Nat` stream
  selecting neighbour indices.
-/

namespace Braid

/-! ## List facts

Small self-contained lemmas about `List.getD`, `List.set`, `List.take` and
`List.drop` used throughout the development. -/

theorem getD_set_self {α : Type} : ∀ (l : List α) (i : Nat) (a d : α),
    i < l.length → (l.set i a).getD i d = a
  | [], i, _, _, h => absurd h (by simp)
  | _ :: _, 0, _, _, _ => rfl
  | _ :: xs, i + 1, a, d, h =>
    getD_set_self xs i a d (by simpa using h)

theorem getD_set_ne {α : Type} : ∀ (l : List α) (i j : Nat) (a d : α),
    i ≠ j → (l.set i a).getD j d = l.getD j d
  | [], _, _, _, _, _ => rfl
  | _ :: _, 0, 0, _, _, h => absurd rfl h
  | _ :: _, 0, _ + 1, _, _, _ => rfl
  | _ :: _, _ + 1, 0, _, _, _ => rfl
  | _ :: xs, i + 1, j + 1, a, d, h =>
    getD_set_ne xs i j a d (fun hij => h (by omega))

theorem getD_of_getElem? {α : Type} : ∀ (l : List α) (i : Nat) (d a : α),
    l[i]? = some a → l.getD i d = a
  | [], i, _, _, h => by simp at h
  | x :: _, 0, _, _, h => by simpa using h
  | _ :: xs, i + 1, d, a, h => getD_of_getElem? xs i d a (by simpa using h)

theorem getD_append_left {α : Type} : ∀ (l r : List α) (i : Nat) (d : α),
    i < l.length → (l ++ r).getD i d = l.getD i d
  | [], _, i, _, h => absurd h (by simp)
  | _ :: _, _, 0, _, _ => rfl
  | _ :: xs, r, i + 1, d, h => getD_append_left xs r i d (by simpa using h)

theorem getD_mem {α : Type} : ∀ (l : List α) (i : Nat) (d : α),
    i < l.length → l.getD i d ∈ l
  | [], i, _, h => absurd h (by simp)
  | _ :: _, 0, _, _ => List.mem_cons_self _ _
  | _ :: xs, i + 1, d, h =>
    List.mem_cons_of_mem _ (getD_mem xs i d (by simpa using h))

/-! ## Bytes and the bincode model

`encLE k n` is the `k`-byte little-endian encoding of `n`, matching
bincode's fixint encoding of `u64` for `k = 8`.  `decLE` is its decoder,
returning the decoded value and the remaining input. -/

def encLE : Nat → Nat → List Nat
  | 0, _ => []
  | k + 1, n => n % 256 :: encLE k (n / 256)

def decLE : Nat → List Nat → Option (Nat × List Nat)
  | 0, l => some (0, l)
  | _ + 1, [] => none
  | k + 1, b :: l =>
    match decLE k l with
    | none => none
    | some (v, r) => some (b + 256 * v, r)

theorem length_encLE : ∀ (k n : Nat), (encLE k n).length = k
  | 0, _ => rfl
  | k + 1, n => by simp [encLE, length_encLE k]

theorem decLE_encLE : ∀ (k n : Nat) (rest : List Nat),
    decLE k (encLE k n ++ rest) = some (n % 256 ^ k, rest)
  | 0, n, rest => by simp [encLE, decLE, Nat.mod_one]
  | k + 1, n, rest => by
    have ih := decLE_encLE k (n / 256) rest
    simp only [encLE, List.cons_append, decLE, List.append_eq, ih]
    rw [pow_succ, mul_comm (256 ^ k) 256, Nat.mod_mul]

theorem decLE_encLE_of_lt (n : Nat) (rest : List Nat) (h : n < 256 ^ 8) :
    decLE 8 (encLE 8 n ++ rest) = some (n, rest) := by
  rw [decLE_encLE, Nat.mod_eq_of_lt h]

/-- Bound under which a `u64` value is encoded faithfully: `2 ^ 64`. -/
def u64Bound : Nat := 256 ^ 8

/-! ## Strings, byte buffers and their bincode encodings -/

/-- Byte payload of a Rust `String`: the code points of its characters.
For ASCII strings this is exactly the UTF-8 byte string that bincode
serializes. -/
def strBytes (s : String) : List Nat := s.data.map (fun c => c.toNat)

/-- bincode encoding of a `String`: `u64` byte length, then the bytes. -/
def encStr (s : String) : List Nat := encLE 8 (strBytes s).length ++ strBytes s

/-- bincode decoding of a `String` (inverse of `encStr` on ASCII data). -/
def decStr (l : List Nat) : Option (String × List Nat) :=
  (decLE 8 l).bind (fun p =>
    if p.1 ≤ p.2.length then
      some (String.mk ((p.2.take p.1).map (fun b => Char.ofNat b)), p.2.drop p.1)
    else none)

theorem decStr_encStr (s : String) (rest : List Nat)
    (h : (strBytes s).length < u64Bound) :
    decStr (encStr s ++ rest) = some (s, rest) := by
  unfold decStr encStr
  rw [List.append_assoc, decLE_encLE_of_lt _ _ h, Option.some_bind]
  have hlen : (strBytes s).length ≤ (strBytes s ++ rest).length := by
    simp [List.length_append]
  rw [if_pos hlen]
  simp only [List.take_left, List.drop_left]
  have hmap : (strBytes s).map (fun b => Char.ofNat b) = s.data := by
    unfold strBytes
    rw [List.map_map]
    have hcomp : ((fun b => Char.ofNat b) ∘ fun c => c.toNat) = id := by
      funext c
      exact Char.ofNat_toNat c
    rw [hcomp, List.map_id]
  rw [hmap]

/-- bincode encoding of a `Vec<u8>`: `u64` length, then the raw bytes. -/
def encBytes (l : List Nat) : List Nat := encLE 8 l.length ++ l

/-- bincode decoding of a `Vec<u8>`. -/
def decBytes (l : List Nat) : Option (List Nat × List Nat) :=
  (decLE 8 l).bind (fun p =>
    if p.1 ≤ p.2.length then some (p.2.take p.1, p.2.drop p.1) else none)

theorem decBytes_encBytes (l rest : List Nat) (h : l.length < u64Bound) :
    decBytes (encBytes l ++ rest) = some (l, rest) := by
  unfold decBytes encBytes
  rw [List.append_assoc, decLE_encLE_of_lt _ _ h, Option.some_bind]
  rw [if_pos (by simp [List.length_append])]
  simp only [List.take_left, List.drop_left]

/-! ## State and its canonical serialization

From `src/braid/src/blockchain/state_channel.rs`:

```
pub struct State {
    pub player_address: String,
    pub move_hash: Vec<u8>,
    pub turn_number: u64,
}
```
-/

structure State where
  player_address : String
  move_hash : List Nat
  turn_number : Nat
deriving DecidableEq

/-- bincode serialization of a `State`: the fields in declaration order. -/
def serStateBytes (s : State) : List Nat :=
  encStr s.player_address ++ encBytes s.move_hash ++ encLE 8 s.turn_number

/-- bincode deserialization of a `State`; `none` models a bincode decode
error (which the source turns into a panic via `unwrap`). -/
def decStateBytes (l : List Nat) : Option (State × List Nat) :=
  (decStr l).bind (fun pa =>
    (decBytes pa.2).bind (fun pm =>
      (decLE 8 pm.2).map (fun pt => (⟨pa.1, pm.1, pt.1⟩, pt.2))))

theorem decStateBytes_serStateBytes (s : State) (rest : List Nat)
    (haddr : (strBytes s.player_address).length < u64Bound)
    (hmh : s.move_hash.length < u64Bound)
    (htn : s.turn_number < u64Bound) :
    decStateBytes (serStateBytes s ++ rest) = some (s, rest) := by
  unfold decStateBytes serStateBytes
  rw [List.append_assoc, List.append_assoc, decStr_encStr _ _ haddr,
    Option.some_bind, decBytes_encBytes _ _ hmh, Option.some_bind,
    decLE_encLE_of_lt _ _ htn, Option.map_some']

/-! ## StateChannel

From `src/braid/src/blockchain/state_channel.rs`.  Signatures produced by
`secp256k1::sign` are opaque values to the code under scrutiny; they are
modelled by an abstract byte wrapper.  `sign_state` serializes
`current_state`, hashes and signs it through the external secp256k1/SHA-256
library; that external call is modelled by the function argument `signer`
applied to the serialized state bytes.  The source takes `&mut self` but
writes no field; the embedding returns the unchanged channel alongside the
signature. -/

structure Signature where
  bytes : List Nat
deriving DecidableEq

structure StateChannel where
  player_address : String
  server_address : String
  initial_state : State
  current_state : State
  player_signature : Option Signature
  server_signature : Option Signature
deriving DecidableEq

/-- `StateChannel::new`: initial and current state both at turn 0 with an
empty move hash; no signatures. -/
def StateChannel.new (player_address server_address : String) : StateChannel :=
  { player_address := player_address
    server_address := server_address
    initial_state := ⟨player_address, [], 0⟩
    current_state := ⟨player_address, [], 0⟩
    player_signature := none
    server_signature := none }

/-- `StateChannel::sign_state`: serialize `current_state`, hash and sign it
(the external secp256k1/SHA-256 call is the `signer` argument); the channel
is returned unchanged because the source writes no field. -/
def StateChannel.sign_state (c : StateChannel)
    (signer : List Nat → Signature) : Signature × StateChannel :=
  (signer (serStateBytes c.current_state), c)

/-- `StateChannel::update_state`: unconditionally replaces `current_state`
with a new `State` carrying the channel's own player address and the given
move hash and turn number, and stores both signatures.  The source performs
no staleness or signature check. -/
def StateChannel.update_state (c : StateChannel) (move_hash : List Nat)
    (turn_number : Nat) (player_signature server_signature : Signature) :
    StateChannel :=
  { c with
    current_state := ⟨c.player_address, move_hash, turn_number⟩
    player_signature := some player_signature
    server_signature := some server_signature }

/-- `StateChannel::serialize_state`: bincode encoding of `current_state`. -/
def StateChannel.serialize_state (c : StateChannel) : List Nat :=
  serStateBytes c.current_state

/-- `StateChannel::deserialize_state`: bincode decoding of a `State`.
The source calls `bincode::deserialize(data).unwrap()`; the `none` result
marks exactly the inputs on which that `unwrap` panics. -/
def StateChannel.deserialize_state (data : List Nat) : Option State :=
  (decStateBytes data).map Prod.fst

/-- Operations a caller can perform on a channel after creation; the
`sign` payload is the external signing function supplied to that call. -/
inductive ChannelOp where
  | sign : (List Nat → Signature) → ChannelOp
  | update : List Nat → Nat → Signature → Signature → ChannelOp

/-- Effect of one operation on the channel. -/
def applyOp (c : StateChannel) : ChannelOp → StateChannel
  | .sign signer => (c.sign_state signer).2
  | .update mh tn ps ss => c.update_state mh tn ps ss

/-- Effect of a sequence of operations on the channel. -/
def runOps (c : StateChannel) (ops : List ChannelOp) : StateChannel :=
  ops.foldl applyOp c

/-- C1: the claim says `update_state` rejects a `turn_number` that is not
strictly greater than `current_state.turn_number` (StaleUpdate) and checks
both signatures (InvalidSignature).  The source does neither: evaluating the
embedded code, a channel whose current turn number is 5 accepts an update
with turn number 3 and arbitrary unchecked signatures, and its
`current_state` changes to the stale state. -/
theorem update_state_accepts_stale_update :
    ((StateChannel.new "player" "server").update_state [1] 5 ⟨[7]⟩ ⟨[8]⟩
      |>.update_state [2] 3 ⟨[9]⟩ ⟨[9]⟩).current_state.turn_number = 3 ∧
    ((StateChannel.new "player" "server").update_state [1] 5 ⟨[7]⟩ ⟨[8]⟩
      |>.update_state [2] 3 ⟨[9]⟩ ⟨[9]⟩).current_state ≠
      ((StateChannel.new "player" "server").update_state [1] 5 ⟨[7]⟩
        ⟨[8]⟩).current_state := by
  constructor
  · rfl
  · intro h
    have : (3 : Nat) = 5 := congrArg State.turn_number h
    omega

/-- C7: `deserialize_state` on malformed bytes.  The source executes
`bincode::deserialize(data).unwrap()`, which panics on a decode error (the
`none` branch of the embedding) instead of returning a typed `DecodeError`;
the empty byte string is such an input.  The second conjunct checks the
round-trip half of the claim on the embedded code at a concrete channel. -/
theorem deserialize_state_panics_on_malformed :
    StateChannel.deserialize_state [] = none ∧
    StateChannel.deserialize_state
        (StateChannel.new "p1" "s1").serialize_state =
      some (StateChannel.new "p1" "s1").current_state := by
  constructor
  · rfl
  · rfl

/-- Round trip of the channel's state serialization, for any channel whose
current state fits in the `u64`/length bounds of the wire format. -/
theorem serialize_roundtrip (c : StateChannel)
    (haddr : (strBytes c.current_state.player_address).length < u64Bound)
    (hmh : c.current_state.move_hash.length < u64Bound)
    (htn : c.current_state.turn_number < u64Bound) :
    StateChannel.deserialize_state c.serialize_state =
      some c.current_state := by
  unfold StateChannel.deserialize_state StateChannel.serialize_state
  have h := decStateBytes_serStateBytes c.current_state [] haddr hmh htn
  rw [List.append_nil] at h
  rw [h, Option.map_some']

/-- C9: under any sequence of `sign_state` and `update_state` calls, the
channel's `initial_state` stays the state fixed at creation (turn 0, empty
move hash), its player and server addresses are unchanged, and `sign_state`
mutates no field at all. -/
theorem channel_frame_invariants (p s : String) (ops : List ChannelOp) :
    (runOps (StateChannel.new p s) ops).initial_state = ⟨p, [], 0⟩ ∧
    (runOps (StateChannel.new p s) ops).player_address = p ∧
    (runOps (StateChannel.new p s) ops).server_address = s ∧
    ∀ (c : StateChannel) (signer : List Nat → Signature),
      (c.sign_state signer).2 = c := by
  refine ⟨?_, ?_, ?_, fun c signer => rfl⟩ <;>
  · suffices h : ∀ (c : StateChannel) (ops : List ChannelOp),
        (runOps c ops).initial_state = c.initial_state ∧
        (runOps c ops).player_address = c.player_address ∧
        (runOps c ops).server_address = c.server_address by
      rcases h (StateChannel.new p s) ops with ⟨h1, h2, h3⟩
      first
        | exact h1.trans rfl
        | exact h2.trans rfl
        | exact h3.trans rfl
    intro c ops
    induction ops generalizing c with
    | nil => exact ⟨rfl, rfl, rfl⟩
    | cons op rest ih =>
      rcases ih (applyOp c op) with ⟨h1, h2, h3⟩
      refine ⟨h1.trans ?_, h2.trans ?_, h3.trans ?_⟩ <;>
        cases op <;> rfl

/-- C10: the invariant `current_state.player_address = player_address` holds
after `new` and after every `update_state` call — `update_state` stamps the
channel's own player address into the new state regardless of its
arguments, so no caller can install a current state bound to a different
player address. -/
theorem current_state_player_address_invariant (p s : String) :
    ((StateChannel.new p s).current_state.player_address =
      (StateChannel.new p s).player_address) ∧
    ∀ (c : StateChannel) (mh : List Nat) (tn : Nat)
      (ps ss : Signature),
      (c.update_state mh tn ps ss).current_state.player_address =
        (c.update_state mh tn ps ss).player_address :=
  ⟨rfl, fun _ _ _ _ _ => rfl⟩

/-! ## Ledger transactions

From `src/braid/src/blockchain/transactions.rs`.  The `amount` field is an
`f64` that the factories only store (no floating-point arithmetic is
performed on it), so it is modelled as `ℚ`. -/

structure BlockchainTransaction where
  sender : String
  receiver : String
  amount : ℚ
  data : List Nat
deriving DecidableEq

/-- `BlockchainTransaction::new`. -/
def BlockchainTransaction.new (sender receiver : String) (amount : ℚ)
    (data : List Nat) : BlockchainTransaction :=
  ⟨sender, receiver, amount, data⟩

/-- bincode encoding of the elements of a `Vec<(usize, usize)>`. -/
def encPairs : List (Nat × Nat) → List Nat
  | [] => []
  | (x, y) :: ps => encLE 8 x ++ encLE 8 y ++ encPairs ps

/-- bincode encoding of a `Vec<(usize, usize)>`: `u64` length, elements. -/
def encPairList (ps : List (Nat × Nat)) : List Nat :=
  encLE 8 ps.length ++ encPairs ps

/-- bincode decoding of `count` consecutive `(usize, usize)` pairs. -/
def decPairs : Nat → List Nat → Option (List (Nat × Nat) × List Nat)
  | 0, l => some ([], l)
  | k + 1, l =>
    (decLE 8 l).bind (fun px =>
      (decLE 8 px.2).bind (fun py =>
        (decPairs k py.2).map (fun pr =>
          ((px.1, py.1) :: pr.1, pr.2))))

/-- bincode decoding of a `Vec<(usize, usize)>`. -/
def decPairList (l : List Nat) : Option (List (Nat × Nat) × List Nat) :=
  (decLE 8 l).bind (fun pn => decPairs pn.1 pn.2)

theorem decPairs_encPairs : ∀ (ps : List (Nat × Nat)) (rest : List Nat),
    (∀ q ∈ ps, q.1 < u64Bound ∧ q.2 < u64Bound) →
    decPairs ps.length (encPairs ps ++ rest) = some (ps, rest)
  | [], rest, _ => by simp [encPairs, decPairs]
  | (x, y) :: ps, rest, h => by
    have hx := (h (x, y) (List.mem_cons_self _ _)).1
    have hy := (h (x, y) (List.mem_cons_self _ _)).2
    have ih := decPairs_encPairs ps rest
      (fun q hq => h q (List.mem_cons_of_mem _ hq))
    simp only [encPairs, List.length_cons, decPairs, List.append_assoc]
    rw [decLE_encLE_of_lt _ _ hx, Option.some_bind,
      decLE_encLE_of_lt _ _ hy, Option.some_bind, ih, Option.map_some']

theorem decPairList_encPairList (ps : List (Nat × Nat))
    (hlen : ps.length < u64Bound)
    (h : ∀ q ∈ ps, q.1 < u64Bound ∧ q.2 < u64Bound) :
    decPairList (encPairList ps) = some (ps, []) := by
  unfold decPairList encPairList
  have := decPairs_encPairs ps [] h
  rw [List.append_nil] at this
  rw [decLE_encLE_of_lt _ _ hlen, Option.some_bind, this]

/-- `BlockchainTransaction::commit_ante`. -/
def commit_ante (sender : String) (amount : ℚ) : BlockchainTransaction :=
  BlockchainTransaction.new sender "treasure_pool" amount []

/-- `BlockchainTransaction::submit_path`. -/
def submit_path (sender : String) (path : List (Nat × Nat)) :
    BlockchainTransaction :=
  BlockchainTransaction.new sender "game_contract" 0 (encPairList path)

/-- `BlockchainTransaction::claim_treasure`. -/
def claim_treasure (sender : String) (amount : ℚ) : BlockchainTransaction :=
  BlockchainTransaction.new sender "treasure_pool" amount []

/-- `BlockchainTransaction::slash_claim`; `data` is the UTF-8 reason. -/
def slash_claim (sender receiver : String) (reason : String) :
    BlockchainTransaction :=
  BlockchainTransaction.new sender receiver 0 (strBytes reason)

/-- `BlockchainTransaction::audit_transaction`. -/
def audit_transaction (sender : String) (data : List Nat) :
    BlockchainTransaction :=
  BlockchainTransaction.new sender "audit_contract" 0 data

/-- `BlockchainTransaction::open_state_channel`. -/
def open_state_channel (sender receiver : String) (initial_state : State) :
    BlockchainTransaction :=
  BlockchainTransaction.new sender receiver 0 (serStateBytes initial_state)

/-- `BlockchainTransaction::close_state_channel`. -/
def close_state_channel (sender receiver : String) (final_state : State) :
    BlockchainTransaction :=
  BlockchainTransaction.new sender receiver 0 (serStateBytes final_state)

/-- `BlockchainTransaction::commit_move_on_chain`: `move_hash` bytes
immediately followed by the proof bytes. -/
def commit_move_on_chain (sender : String) (move_hash zk_proof : List Nat) :
    BlockchainTransaction :=
  BlockchainTransaction.new sender "game_contract" 0 (move_hash ++ zk_proof)

/-- C8: every `BlockchainTransaction` factory fills `sender`, `receiver`,
`amount` and `data` as the specification's transaction table lists them;
decoding `submit_path`'s data recovers the path, and decoding
`open_state_channel` / `close_state_channel` data recovers the state,
whenever the payload fits the `u64` wire bounds. -/
theorem transaction_factories_conform
    (player accuser accused auditor server reason : String)
    (ante claim : ℚ) (path : List (Nat × Nat)) (st : State)
    (payload move_hash zk_proof : List Nat)
    (hpathlen : path.length < u64Bound)
    (hpath : ∀ q ∈ path, q.1 < u64Bound ∧ q.2 < u64Bound)
    (haddr : (strBytes st.player_address).length < u64Bound)
    (hmh : st.move_hash.length < u64Bound)
    (htn : st.turn_number < u64Bound) :
    ((commit_ante player ante).sender = player ∧
      (commit_ante player ante).receiver = "treasure_pool" ∧
      (commit_ante player ante).amount = ante ∧
      (commit_ante player ante).data = []) ∧
    ((submit_path player path).sender = player ∧
      (submit_path player path).receiver = "game_contract" ∧
      (submit_path player path).amount = 0 ∧
      decPairList (submit_path player path).data = some (path, [])) ∧
    ((claim_treasure player claim).sender = player ∧
      (claim_treasure player claim).receiver = "treasure_pool" ∧
      (claim_treasure player claim).amount = claim ∧
      (claim_treasure player claim).data = []) ∧
    ((slash_claim accuser accused reason).sender = accuser ∧
      (slash_claim accuser accused reason).receiver = accused ∧
      (slash_claim accuser accused reason).amount = 0 ∧
      (slash_claim accuser accused reason).data = strBytes reason) ∧
    ((audit_transaction auditor payload).sender = auditor ∧
      (audit_transaction auditor payload).receiver = "audit_contract" ∧
      (audit_transaction auditor payload).amount = 0 ∧
      (audit_transaction auditor payload).data = payload) ∧
    ((open_state_channel player server st).sender = player ∧
      (open_state_channel player server st).receiver = server ∧
      (open_state_channel player server st).amount = 0 ∧
      StateChannel.deserialize_state (open_state_channel player server st).data
        = some st) ∧
    ((close_state_channel player server st).sender = player ∧
      (close_state_channel player server st).receiver = server ∧
      (close_state_channel player server st).amount = 0 ∧
      StateChannel.deserialize_state (close_state_channel player server st).data
        = some st) ∧
    ((commit_move_on_chain player move_hash zk_proof).sender = player ∧
      (commit_move_on_chain player move_hash zk_proof).receiver
        = "game_contract" ∧
      (commit_move_on_chain player move_hash zk_proof).amount = 0 ∧
      (commit_move_on_chain player move_hash zk_proof).data
        = move_hash ++ zk_proof) := by
  have hdec : StateChannel.deserialize_state (serStateBytes st) = some st := by
    unfold StateChannel.deserialize_state
    have h := decStateBytes_serStateBytes st [] haddr hmh htn
    rw [List.append_nil] at h
    rw [h, Option.map_some']
  refine ⟨⟨rfl, rfl, rfl, rfl⟩,
    ⟨rfl, rfl, rfl, decPairList_encPairList path hpathlen hpath⟩,
    ⟨rfl, rfl, rfl, rfl⟩, ⟨rfl, rfl, rfl, rfl⟩, ⟨rfl, rfl, rfl, rfl⟩,
    ⟨rfl, rfl, rfl, hdec⟩, ⟨rfl, rfl, rfl, hdec⟩, ⟨rfl, rfl, rfl, rfl⟩⟩

/-- Witness for C8 at the specification's own example
`submit_path("p1", [(0,0),(0,1),(1,1)])` and a concrete state. -/
theorem transaction_factories_conform_witness :
    (submit_path "p1" [(0, 0), (0, 1), (1, 1)]).receiver = "game_contract" ∧
    decPairList (submit_path "p1" [(0, 0), (0, 1), (1, 1)]).data =
      some ([(0, 0), (0, 1), (1, 1)], []) ∧
    StateChannel.deserialize_state
        (open_state_channel "p1" "s1" ⟨"p1", [0, 1, 2, 3], 0⟩).data =
      some ⟨"p1", [0, 1, 2, 3], 0⟩ := by
  have h := transaction_factories_conform "p1" "a" "b" "aud" "s1" "r" 0 0
    [(0, 0), (0, 1), (1, 1)] ⟨"p1", [0, 1, 2, 3], 0⟩ [] [] []
    (by decide)
    (by decide)
    (by decide)
    (by decide)
    (by decide)
  exact ⟨h.2.1.2.1, h.2.1.2.2.2, h.2.2.2.2.2.1.2.2.2⟩

/-! ## Maze data model

From `src/braid/src/dungeon/maze.rs`.  A cell's `walls: [bool; 4]` array is
embedded with one named field per index, in the source's order
`[north, east, south, west]` (`walls[0] = north`, `walls[1] = east`,
`walls[2] = south`, `walls[3] = west`).  The grid is a `Vec<Vec<Cell>>`
indexed `grid[x][y]` with `x` the outer index, embedded as a list of
columns. -/

structure Cell where
  x : Nat
  y : Nat
  visited : Bool
  north : Bool
  east : Bool
  south : Bool
  west : Bool
deriving DecidableEq

/-- `Cell::new`: unvisited, all four walls present. -/
def Cell.new (x y : Nat) : Cell :=
  ⟨x, y, false, true, true, true, true⟩

structure Maze where
  width : Nat
  height : Nat
  grid : List (List Cell)
deriving DecidableEq

/-- `Maze::new`: a `width × height` grid of fresh cells, outer index `x`. -/
def Maze.new (width height : Nat) : Maze :=
  ⟨width, height,
    (List.range width).map (fun x => (List.range height).map (fun y => Cell.new x y))⟩

/-- Read `grid[x][y]`.  All reads performed by the embedded algorithms are
in bounds (witnessed by `Maze.WF` in the proofs), so the default value is
irrelevant there. -/
def Maze.cellAt (m : Maze) (x y : Nat) : Cell :=
  (m.grid.getD x []).getD y (Cell.new x y)

/-- Write `grid[x][y] = f (grid[x][y])`, the shape of every mutation the
source performs on the grid. -/
def Maze.updCell (m : Maze) (x y : Nat) (f : Cell → Cell) : Maze :=
  { m with grid := m.grid.set x ((m.grid.getD x []).set y (f (m.cellAt x y))) }

/-- Shape well-formedness of the grid: `width` columns of `height` cells. -/
def Maze.WF (m : Maze) : Prop :=
  m.grid.length = m.width ∧ ∀ i, i < m.width → (m.grid.getD i []).length = m.height

/-! ## Masking (`Maze::get_masked_maze`)

The source iterates `x` over `0..width` and `y` over `0..height`, reading
`mask[x][y]` (a panic if the mask is too small, modelled by `none`) and, for
a visible cell, `grid[x][y]` (same remark). -/

/-- One iteration of the inner loop: the cell pushed for position `(x, y)`,
or `none` where the source panics on an out-of-bounds index. -/
def maskCell (m : Maze) (mask : List (List Bool)) (x y : Nat) : Option Cell :=
  (mask[x]?).bind (fun mrow =>
    (mrow[y]?).bind (fun b =>
      if b then (m.grid[x]?).bind (fun grow => grow[y]?)
      else some (Cell.new x y)))

/-- The first `k` cells of masked column `x`, in loop order. -/
def maskCellsUpTo (m : Maze) (mask : List (List Bool)) (x : Nat) :
    Nat → Option (List Cell)
  | 0 => some []
  | k + 1 =>
    (maskCellsUpTo m mask x k).bind (fun cs =>
      (maskCell m mask x k).map (fun c => cs ++ [c]))

/-- The first `k` masked columns, in loop order. -/
def maskRowsUpTo (m : Maze) (mask : List (List Bool)) :
    Nat → Option (List (List Cell))
  | 0 => some []
  | k + 1 =>
    (maskRowsUpTo m mask k).bind (fun rs =>
      (maskCellsUpTo m mask k m.height).map (fun r => rs ++ [r]))

/-- `Maze::get_masked_maze`; `none` marks exactly the executions on which
the source panics with an index out of bounds. -/
def Maze.get_masked_maze (m : Maze) (mask : List (List Bool)) : Option Maze :=
  (maskRowsUpTo m mask m.width).map (fun g => ⟨m.width, m.height, g⟩)

theorem getD_oob {α : Type} : ∀ (l : List α) (i : Nat) (d : α),
    l.length ≤ i → l.getD i d = d
  | [], _, _, _ => rfl
  | _ :: _, 0, _, h => absurd h (by simp)
  | _ :: xs, i + 1, d, h => getD_oob xs i d (by simpa using h)

theorem getD_map_range {α : Type} (f : Nat → α) (n i : Nat) (d : α)
    (h : i < n) : ((List.range n).map f).getD i d = f i := by
  refine getD_of_getElem? _ _ _ _ ?_
  rw [List.getElem?_map, List.getElem?_range h, Option.map_some']

/-- Value of the cell the masking loop emits at position `(x, y)` when all
index accesses are in bounds. -/
def maskedCellSpec (m : Maze) (mask : List (List Bool)) (x y : Nat) : Cell :=
  if (mask.getD x []).getD y false then m.cellAt x y else Cell.new x y

/-- Dimension agreement between a mask and a maze, as the claim assumes. -/
def MaskDims (m : Maze) (mask : List (List Bool)) : Prop :=
  mask.length = m.width ∧
    ∀ i, i < m.width → (mask.getD i []).length = m.height

theorem maskCell_eq (m : Maze) (mask : List (List Bool)) (x y : Nat)
    (hwf : m.WF) (hdim : MaskDims m mask) (hx : x < m.width)
    (hy : y < m.height) :
    maskCell m mask x y = some (maskedCellSpec m mask x y) := by
  rcases hwf with ⟨hg, hrows⟩
  rcases hdim with ⟨hm, hmrows⟩
  have hxm : x < mask.length := by omega
  have hmaskx : mask[x]? = some (mask.getD x []) := by
    rw [List.getElem?_eq_getElem hxm]
    exact congrArg some (getD_of_getElem? _ _ _ _
      (List.getElem?_eq_getElem hxm)).symm
  have hym : y < (mask.getD x []).length := by rw [hmrows x hx]; exact hy
  have hmasky : (mask.getD x [])[y]? = some ((mask.getD x []).getD y false) := by
    rw [List.getElem?_eq_getElem hym]
    exact congrArg some (getD_of_getElem? _ _ _ _
      (List.getElem?_eq_getElem hym)).symm
  have hxg : x < m.grid.length := by omega
  have hgridx : m.grid[x]? = some (m.grid.getD x []) := by
    rw [List.getElem?_eq_getElem hxg]
    exact congrArg some (getD_of_getElem? _ _ _ _
      (List.getElem?_eq_getElem hxg)).symm
  have hyg : y < (m.grid.getD x []).length := by rw [hrows x hx]; exact hy
  have hgridy : (m.grid.getD x [])[y]? = some (m.cellAt x y) := by
    rw [List.getElem?_eq_getElem hyg]
    exact congrArg some (getD_of_getElem? _ _ _ _
      (List.getElem?_eq_getElem hyg)).symm
  unfold maskCell maskedCellSpec
  rw [hmaskx, Option.some_bind, hmasky, Option.some_bind]
  by_cases hb : (mask.getD x []).getD y false
  · rw [if_pos hb, if_pos hb, hgridx, Option.some_bind, hgridy]
  · rw [if_neg hb, if_neg hb]

theorem maskCellsUpTo_eq (m : Maze) (mask : List (List Bool)) (x : Nat)
    (hwf : m.WF) (hdim : MaskDims m mask) (hx : x < m.width) :
    ∀ k, k ≤ m.height →
      maskCellsUpTo m mask x k =
        some ((List.range k).map (maskedCellSpec m mask x))
  | 0, _ => by simp [maskCellsUpTo]
  | k + 1, h => by
    rw [maskCellsUpTo, maskCellsUpTo_eq m mask x hwf hdim hx k (by omega),
      Option.some_bind, maskCell_eq m mask x k hwf hdim hx (by omega),
      Option.map_some', List.range_succ, List.map_append, List.map_singleton]

theorem maskRowsUpTo_eq (m : Maze) (mask : List (List Bool))
    (hwf : m.WF) (hdim : MaskDims m mask) :
    ∀ k, k ≤ m.width →
      maskRowsUpTo m mask k =
        some ((List.range k).map
          (fun x => (List.range m.height).map (maskedCellSpec m mask x)))
  | 0, _ => by simp [maskRowsUpTo]
  | k + 1, h => by
    rw [maskRowsUpTo, maskRowsUpTo_eq m mask hwf hdim k (by omega),
      Option.some_bind,
      maskCellsUpTo_eq m mask k hwf hdim (by omega) m.height (le_refl _),
      Option.map_some', List.range_succ, List.map_append, List.map_singleton]

/-- C3: for a mask of the maze's dimensions, masking succeeds and yields a
maze of the same width and height whose cell at `(x, y)` is the source cell
copied verbatim when the mask entry is true, and a pristine `Cell::new x y`
(unvisited, all four walls) otherwise; an all-true mask reproduces the
source maze exactly and an all-false mask yields pristine cells
everywhere. -/
theorem get_masked_maze_spec (m : Maze) (mask : List (List Bool))
    (hwf : m.WF) (hdim : MaskDims m mask) :
    ∃ m', m.get_masked_maze mask = some m' ∧
      m'.width = m.width ∧ m'.height = m.height ∧
      (∀ x y, x < m.width → y < m.height →
        m'.cellAt x y =
          if (mask.getD x []).getD y false then m.cellAt x y
          else Cell.new x y) ∧
      ((∀ row ∈ mask, ∀ b ∈ row, b = true) → m' = m) ∧
      ((∀ row ∈ mask, ∀ b ∈ row, b = false) →
        ∀ x y, x < m.width → y < m.height → m'.cellAt x y = Cell.new x y) := by
  refine ⟨⟨m.width, m.height,
    (List.range m.width).map
      (fun x => (List.range m.height).map (maskedCellSpec m mask x))⟩,
    ?_, rfl, rfl, ?_, ?_, ?_⟩
  · unfold Maze.get_masked_maze
    rw [maskRowsUpTo_eq m mask hwf hdim m.width (le_refl _), Option.map_some']
  · intro x y hx hy
    show (Maze.cellAt _ x y) = _
    unfold Maze.cellAt
    rw [show (⟨m.width, m.height, (List.range m.width).map
        (fun x => (List.range m.height).map (maskedCellSpec m mask x))⟩ :
        Maze).grid = (List.range m.width).map
        (fun x => (List.range m.height).map (maskedCellSpec m mask x)) from rfl,
      getD_map_range _ _ _ _ hx, getD_map_range _ _ _ _ hy]
    rfl
  · intro hall
    have hcell : ∀ x y, x < m.width → y < m.height →
        maskedCellSpec m mask x y = m.cellAt x y := by
      intro x y hx hy
      unfold maskedCellSpec
      have hxm : x < mask.length := by rw [hdim.1]; exact hx
      have hrow : mask.getD x [] ∈ mask := getD_mem _ _ _ hxm
      have hym : y < (mask.getD x []).length := by
        rw [hdim.2 x hx]; exact hy
      have hb : (mask.getD x []).getD y false = true :=
        hall _ hrow _ (getD_mem _ _ _ hym)
      rw [if_pos hb]
    have hgrid : (List.range m.width).map
        (fun x => (List.range m.height).map (maskedCellSpec m mask x)) =
        m.grid := by
      refine List.ext_getElem ?_ ?_
      · rw [List.length_map, List.length_range, hwf.1]
      · intro i h1 h2
        rw [List.getElem_map, List.getElem_range]
        have hi : i < m.width := by
          rw [List.length_map, List.length_range] at h1
          exact h1
        have hcol : m.grid[i] = m.grid.getD i [] :=
          (getD_of_getElem? _ _ _ _ (List.getElem?_eq_getElem h2)).symm
        rw [hcol]
        refine List.ext_getElem ?_ ?_
        · rw [List.length_map, List.length_range, hwf.2 i hi]
        · intro j h3 h4
          rw [List.getElem_map, List.getElem_range]
          have hj : j < m.height := by
            rw [List.length_map, List.length_range] at h3
            exact h3
          have hcell2 : (m.grid.getD i [])[j] = (m.grid.getD i []).getD j
              (Cell.new i j) :=
            (getD_of_getElem? _ _ _ _ (List.getElem?_eq_getElem h4)).symm
          rw [hcell2]
          exact hcell i j hi hj
    rw [hgrid]
  · intro hall x y hx hy
    show (Maze.cellAt _ x y) = _
    unfold Maze.cellAt
    rw [show (⟨m.width, m.height, (List.range m.width).map
        (fun x => (List.range m.height).map (maskedCellSpec m mask x))⟩ :
        Maze).grid = (List.range m.width).map
        (fun x => (List.range m.height).map (maskedCellSpec m mask x)) from rfl,
      getD_map_range _ _ _ _ hx, getD_map_range _ _ _ _ hy]
    unfold maskedCellSpec
    have hb : (mask.getD x []).getD y false = false := by
      by_cases hym : y < (mask.getD x []).length
      · have hxm : x < mask.length := by rw [hdim.1]; exact hx
        exact hall _ (getD_mem _ _ _ hxm) _ (getD_mem _ _ _ hym)
      · exact getD_oob _ _ _ (by omega)
    have hcond : ¬ ((mask.getD x []).getD y false = true) := by
      rw [hb]
      exact Bool.false_ne_true
    rw [if_neg hcond]

/-- Witness for C3 at a concrete 2×2 maze and mixed mask. -/
theorem get_masked_maze_spec_witness :
    ∃ m', (Maze.new 2 2).get_masked_maze [[true, false], [false, true]] =
        some m' ∧
      m'.width = (Maze.new 2 2).width ∧ m'.height = (Maze.new 2 2).height ∧
      (∀ x y, x < (Maze.new 2 2).width → y < (Maze.new 2 2).height →
        m'.cellAt x y =
          if (([[true, false], [false, true]] :
              List (List Bool)).getD x []).getD y false then
            (Maze.new 2 2).cellAt x y
          else Cell.new x y) ∧
      ((∀ row ∈ ([[true, false], [false, true]] : List (List Bool)),
          ∀ b ∈ row, b = true) → m' = Maze.new 2 2) ∧
      ((∀ row ∈ ([[true, false], [false, true]] : List (List Bool)),
          ∀ b ∈ row, b = false) →
        ∀ x y, x < (Maze.new 2 2).width → y < (Maze.new 2 2).height →
          m'.cellAt x y = Cell.new x y) :=
  get_masked_maze_spec (Maze.new 2 2) [[true, false], [false, true]]
    (by constructor
        · rfl
        · decide)
    (by constructor
        · rfl
        · decide)

/-- C6: the claim says mismatched mask dimensions yield a DimensionMismatch
error.  The source has no such check: with a 2×2 mask on a 3×3 maze the
loop indexes `mask[0][2]` out of bounds and panics (the `none` branch of the
embedding), and with an oversized 4×4 mask on a 3×3 maze it silently
returns a maze, ignoring the extra entries. -/
theorem get_masked_maze_no_dimension_check :
    (Maze.new 3 3).get_masked_maze [[true, true], [true, true]] = none ∧
    ((Maze.new 3 3).get_masked_maze
        [[false, false, false, false], [false, false, false, false],
          [false, false, false, false], [false, false, false, false]]).isSome
      = true := by
  constructor
  · rfl
  · rfl

/-! ## Maze generation (`Maze::generate`)

The source marks a random start cell visited, pushes it on a FIFO frontier
(`VecDeque`, `pop_front` / `push_back`), and repeatedly pops a cell: if it
has unvisited neighbours it is re-pushed, a random unvisited neighbour is
picked, the wall pair between them is removed, the neighbour is marked
visited and pushed.  Randomness is modelled by the start coordinates and by
`choose : Nat → Nat` (reduced mod the neighbour count); the loop is embedded
with fuel, and `2 * width * height + 1` steps are proved sufficient (the
quantity `2 * unvisited + frontier length` strictly decreases). -/

/-- Set the `visited` flag of `grid[x][y]`. -/
def Maze.markVisited (m : Maze) (x y : Nat) : Maze :=
  m.updCell x y (fun c => { c with visited := true })

/-- `Maze::get_unvisited_neighbors`, in the source's order
west, east, north, south. -/
def Maze.get_unvisited_neighbors (m : Maze) (x y : Nat) : List (Nat × Nat) :=
  (if 0 < x ∧ (m.cellAt (x - 1) y).visited = false then [(x - 1, y)] else []) ++
  (if x < m.width - 1 ∧ (m.cellAt (x + 1) y).visited = false then [(x + 1, y)] else []) ++
  (if 0 < y ∧ (m.cellAt x (y - 1)).visited = false then [(x, y - 1)] else []) ++
  (if y < m.height - 1 ∧ (m.cellAt x (y + 1)).visited = false then [(x, y + 1)] else [])

/-- `Maze::remove_wall`: remove the wall pair between two adjacent cells
(walls `[0] = north`, `[2] = south`, `[1] = east`, `[3] = west`). -/
def Maze.remove_wall (m : Maze) (x1 y1 x2 y2 : Nat) : Maze :=
  if x1 = x2 then
    if y2 < y1 then
      (m.updCell x1 y1 (fun c => { c with north := false })).updCell x2 y2
        (fun c => { c with south := false })
    else
      (m.updCell x1 y1 (fun c => { c with south := false })).updCell x2 y2
        (fun c => { c with north := false })
  else if y1 = y2 then
    if x2 < x1 then
      (m.updCell x1 y1 (fun c => { c with west := false })).updCell x2 y2
        (fun c => { c with east := false })
    else
      (m.updCell x1 y1 (fun c => { c with east := false })).updCell x2 y2
        (fun c => { c with west := false })
  else m

/-- The generation loop; returns the maze and the remaining frontier. -/
def Maze.generateLoop (choose : Nat → Nat) :
    Nat → Maze → List (Nat × Nat) → Maze × List (Nat × Nat)
  | 0, m, frontier => (m, frontier)
  | _ + 1, m, [] => (m, [])
  | fuel + 1, m, c :: rest =>
    match m.get_unvisited_neighbors c.1 c.2 with
    | [] => Maze.generateLoop choose fuel m rest
    | n0 :: ns =>
      let p := (n0 :: ns).getD (choose fuel % (n0 :: ns).length) (0, 0)
      Maze.generateLoop choose fuel
        ((m.remove_wall c.1 c.2 p.1 p.2).markVisited p.1 p.2)
        (rest ++ [c, p])

/-- `Maze::generate`: start from `(sx, sy)` (the random start cell), run
the frontier loop to exhaustion; the fuel is proved sufficient below. -/
def Maze.generate (m : Maze) (sx sy : Nat) (choose : Nat → Nat) : Maze :=
  (Maze.generateLoop choose (2 * m.width * m.height + 1)
    (m.markVisited sx sy) [(sx, sy)]).1

/-! ## Grid update lemmas -/

theorem set_oob {α : Type} : ∀ (l : List α) (i : Nat) (a : α),
    l.length ≤ i → l.set i a = l
  | [], _, _, _ => rfl
  | _ :: _, 0, _, h => absurd h (by simp)
  | x :: xs, i + 1, a, h => by
    show x :: xs.set i a = x :: xs
    rw [set_oob xs i a (by simpa using h)]

theorem updCell_width (m : Maze) (x y : Nat) (f : Cell → Cell) :
    (m.updCell x y f).width = m.width := rfl

theorem updCell_height (m : Maze) (x y : Nat) (f : Cell → Cell) :
    (m.updCell x y f).height = m.height := rfl

theorem WF_updCell (m : Maze) (x y : Nat) (f : Cell → Cell) (hwf : m.WF) :
    (m.updCell x y f).WF := by
  refine ⟨by simp [Maze.updCell, hwf.1], ?_⟩
  intro i hi
  show ((m.grid.set x _).getD i []).length = m.height
  by_cases hix : x = i
  · subst hix
    by_cases hx : x < m.grid.length
    · rw [getD_set_self _ _ _ _ hx, List.length_set]
      exact hwf.2 x hi
    · rw [set_oob _ _ _ (by omega)]
      exact hwf.2 x hi
  · rw [getD_set_ne _ _ _ _ _ hix]
    exact hwf.2 i hi

theorem cellAt_updCell_self (m : Maze) (x y : Nat) (f : Cell → Cell)
    (hwf : m.WF) (hx : x < m.width) (hy : y < m.height) :
    (m.updCell x y f).cellAt x y = f (m.cellAt x y) := by
  have hxg : x < m.grid.length := by rw [hwf.1]; exact hx
  have hyg : y < (m.grid.getD x []).length := by rw [hwf.2 x hx]; exact hy
  show ((m.grid.set x _).getD x []).getD y _ = _
  rw [getD_set_self _ _ _ _ hxg, getD_set_self _ _ _ _ hyg]

theorem cellAt_updCell_ne (m : Maze) (x y a b : Nat) (f : Cell → Cell)
    (hne : a ≠ x ∨ b ≠ y) :
    (m.updCell x y f).cellAt a b = m.cellAt a b := by
  show ((m.grid.set x _).getD a []).getD b _ = _
  by_cases hax : x = a
  · subst hax
    rcases hne with hne | hne
    · exact absurd rfl hne
    · by_cases hx : x < m.grid.length
      · rw [getD_set_self _ _ _ _ hx, getD_set_ne _ _ _ _ _ (fun h => hne h.symm)]
        rfl
      · rw [set_oob _ _ _ (by omega)]
        rfl
  · rw [getD_set_ne _ _ _ _ _ hax]
    rfl

theorem markVisited_width (m : Maze) (x y : Nat) :
    (m.markVisited x y).width = m.width := rfl

theorem markVisited_height (m : Maze) (x y : Nat) :
    (m.markVisited x y).height = m.height := rfl

theorem WF_markVisited (m : Maze) (x y : Nat) (hwf : m.WF) :
    (m.markVisited x y).WF := WF_updCell m x y _ hwf

theorem cellAt_markVisited_self (m : Maze) (x y : Nat)
    (hwf : m.WF) (hx : x < m.width) (hy : y < m.height) :
    (m.markVisited x y).cellAt x y =
      { m.cellAt x y with visited := true } :=
  cellAt_updCell_self m x y _ hwf hx hy

theorem cellAt_markVisited_ne (m : Maze) (x y a b : Nat)
    (hne : a ≠ x ∨ b ≠ y) :
    (m.markVisited x y).cellAt a b = m.cellAt a b :=
  cellAt_updCell_ne m x y a b _ hne

theorem remove_wall_width (m : Maze) (x1 y1 x2 y2 : Nat) :
    (m.remove_wall x1 y1 x2 y2).width = m.width := by
  unfold Maze.remove_wall
  split <;> [skip; split] <;> first | rfl | (split <;> rfl)

theorem remove_wall_height (m : Maze) (x1 y1 x2 y2 : Nat) :
    (m.remove_wall x1 y1 x2 y2).height = m.height := by
  unfold Maze.remove_wall
  split <;> [skip; split] <;> first | rfl | (split <;> rfl)

theorem WF_remove_wall (m : Maze) (x1 y1 x2 y2 : Nat) (hwf : m.WF) :
    (m.remove_wall x1 y1 x2 y2).WF := by
  unfold Maze.remove_wall
  split
  · split
    · exact WF_updCell _ _ _ _ (WF_updCell _ _ _ _ hwf)
    · exact WF_updCell _ _ _ _ (WF_updCell _ _ _ _ hwf)
  · split
    · split
      · exact WF_updCell _ _ _ _ (WF_updCell _ _ _ _ hwf)
      · exact WF_updCell _ _ _ _ (WF_updCell _ _ _ _ hwf)
    · exact hwf

/-! ## Step description lemmas

One generation step turns `m` into
`(m.remove_wall cx cy nx ny).markVisited nx ny` for a neighbour `(nx, ny)`
of `(cx, cy)`; these lemmas describe the resulting grid pointwise, one per
direction of the neighbour. -/

theorem remove_wall_east_eq (m : Maze) (cx cy : Nat) :
    m.remove_wall cx cy (cx + 1) cy =
      (m.updCell cx cy (fun c => { c with east := false })).updCell
        (cx + 1) cy (fun c => { c with west := false }) := by
  unfold Maze.remove_wall
  rw [if_neg (by omega), if_pos rfl, if_neg (by omega)]

theorem remove_wall_west_eq (m : Maze) (cx cy : Nat) (hcx : 0 < cx) :
    m.remove_wall cx cy (cx - 1) cy =
      (m.updCell cx cy (fun c => { c with west := false })).updCell
        (cx - 1) cy (fun c => { c with east := false }) := by
  unfold Maze.remove_wall
  rw [if_neg (by omega), if_pos rfl, if_pos (by omega)]

theorem remove_wall_north_eq (m : Maze) (cx cy : Nat) (hcy : 0 < cy) :
    m.remove_wall cx cy cx (cy - 1) =
      (m.updCell cx cy (fun c => { c with north := false })).updCell
        cx (cy - 1) (fun c => { c with south := false }) := by
  unfold Maze.remove_wall
  rw [if_pos rfl, if_pos (by omega)]

theorem remove_wall_south_eq (m : Maze) (cx cy : Nat) :
    m.remove_wall cx cy cx (cy + 1) =
      (m.updCell cx cy (fun c => { c with south := false })).updCell
        cx (cy + 1) (fun c => { c with north := false }) := by
  unfold Maze.remove_wall
  rw [if_pos rfl, if_neg (by omega)]

theorem stepCells_east (m : Maze) (cx cy : Nat) (hwf : m.WF)
    (hcx : cx + 1 < m.width) (hcy : cy < m.height) :
    ((m.remove_wall cx cy (cx + 1) cy).markVisited (cx + 1) cy).cellAt cx cy =
        { m.cellAt cx cy with east := false } ∧
    ((m.remove_wall cx cy (cx + 1) cy).markVisited (cx + 1) cy).cellAt
        (cx + 1) cy =
        { m.cellAt (cx + 1) cy with visited := true, west := false } ∧
    ∀ a b, (a ≠ cx ∨ b ≠ cy) → (a ≠ cx + 1 ∨ b ≠ cy) →
      ((m.remove_wall cx cy (cx + 1) cy).markVisited (cx + 1) cy).cellAt a b =
        m.cellAt a b := by
  rw [remove_wall_east_eq]
  refine ⟨?_, ?_, ?_⟩
  · rw [cellAt_markVisited_ne _ _ _ _ _ (Or.inl (by omega)),
      cellAt_updCell_ne _ _ _ _ _ _ (Or.inl (by omega)),
      cellAt_updCell_self _ _ _ _ hwf (by omega) hcy]
  · rw [cellAt_markVisited_self _ _ _
        (WF_updCell _ _ _ _ (WF_updCell _ _ _ _ hwf)) hcx hcy,
      cellAt_updCell_self _ _ _ _ (WF_updCell _ _ _ _ hwf) hcx hcy,
      cellAt_updCell_ne _ _ _ _ _ _ (Or.inl (by omega))]
  · intro a b h1 h2
    rw [cellAt_markVisited_ne _ _ _ _ _ h2, cellAt_updCell_ne _ _ _ _ _ _ h2,
      cellAt_updCell_ne _ _ _ _ _ _ h1]

theorem stepCells_west (m : Maze) (cx cy : Nat) (hwf : m.WF)
    (hcx0 : 0 < cx) (hcx : cx < m.width) (hcy : cy < m.height) :
    ((m.remove_wall cx cy (cx - 1) cy).markVisited (cx - 1) cy).cellAt cx cy =
        { m.cellAt cx cy with west := false } ∧
    ((m.remove_wall cx cy (cx - 1) cy).markVisited (cx - 1) cy).cellAt
        (cx - 1) cy =
        { m.cellAt (cx - 1) cy with visited := true, east := false } ∧
    ∀ a b, (a ≠ cx ∨ b ≠ cy) → (a ≠ cx - 1 ∨ b ≠ cy) →
      ((m.remove_wall cx cy (cx - 1) cy).markVisited (cx - 1) cy).cellAt a b =
        m.cellAt a b := by
  rw [remove_wall_west_eq _ _ _ hcx0]
  refine ⟨?_, ?_, ?_⟩
  · rw [cellAt_markVisited_ne _ _ _ _ _ (Or.inl (by omega)),
      cellAt_updCell_ne _ _ _ _ _ _ (Or.inl (by omega)),
      cellAt_updCell_self _ _ _ _ hwf hcx hcy]
  · rw [cellAt_markVisited_self _ _ _
        (WF_updCell _ _ _ _ (WF_updCell _ _ _ _ hwf))
        (show cx - 1 < m.width by omega) hcy,
      cellAt_updCell_self _ _ _ _ (WF_updCell _ _ _ _ hwf)
        (show cx - 1 < m.width by omega) hcy,
      cellAt_updCell_ne _ _ _ _ _ _ (Or.inl (by omega))]
  · intro a b h1 h2
    rw [cellAt_markVisited_ne _ _ _ _ _ h2, cellAt_updCell_ne _ _ _ _ _ _ h2,
      cellAt_updCell_ne _ _ _ _ _ _ h1]

theorem stepCells_north (m : Maze) (cx cy : Nat) (hwf : m.WF)
    (hcy0 : 0 < cy) (hcx : cx < m.width) (hcy : cy < m.height) :
    ((m.remove_wall cx cy cx (cy - 1)).markVisited cx (cy - 1)).cellAt cx cy =
        { m.cellAt cx cy with north := false } ∧
    ((m.remove_wall cx cy cx (cy - 1)).markVisited cx (cy - 1)).cellAt
        cx (cy - 1) =
        { m.cellAt cx (cy - 1) with visited := true, south := false } ∧
    ∀ a b, (a ≠ cx ∨ b ≠ cy) → (a ≠ cx ∨ b ≠ cy - 1) →
      ((m.remove_wall cx cy cx (cy - 1)).markVisited cx (cy - 1)).cellAt a b =
        m.cellAt a b := by
  rw [remove_wall_north_eq _ _ _ hcy0]
  refine ⟨?_, ?_, ?_⟩
  · rw [cellAt_markVisited_ne _ _ _ _ _ (Or.inr (by omega)),
      cellAt_updCell_ne _ _ _ _ _ _ (Or.inr (by omega)),
      cellAt_updCell_self _ _ _ _ hwf hcx hcy]
  · rw [cellAt_markVisited_self _ _ _
        (WF_updCell _ _ _ _ (WF_updCell _ _ _ _ hwf)) hcx
        (show cy - 1 < m.height by omega),
      cellAt_updCell_self _ _ _ _ (WF_updCell _ _ _ _ hwf) hcx
        (show cy - 1 < m.height by omega),
      cellAt_updCell_ne _ _ _ _ _ _ (Or.inr (by omega))]
  · intro a b h1 h2
    rw [cellAt_markVisited_ne _ _ _ _ _ h2, cellAt_updCell_ne _ _ _ _ _ _ h2,
      cellAt_updCell_ne _ _ _ _ _ _ h1]

theorem stepCells_south (m : Maze) (cx cy : Nat) (hwf : m.WF)
    (hcx : cx < m.width) (hcy : cy + 1 < m.height) :
    ((m.remove_wall cx cy cx (cy + 1)).markVisited cx (cy + 1)).cellAt cx cy =
        { m.cellAt cx cy with south := false } ∧
    ((m.remove_wall cx cy cx (cy + 1)).markVisited cx (cy + 1)).cellAt
        cx (cy + 1) =
        { m.cellAt cx (cy + 1) with visited := true, north := false } ∧
    ∀ a b, (a ≠ cx ∨ b ≠ cy) → (a ≠ cx ∨ b ≠ cy + 1) →
      ((m.remove_wall cx cy cx (cy + 1)).markVisited cx (cy + 1)).cellAt a b =
        m.cellAt a b := by
  rw [remove_wall_south_eq]
  refine ⟨?_, ?_, ?_⟩
  · rw [cellAt_markVisited_ne _ _ _ _ _ (Or.inr (by omega)),
      cellAt_updCell_ne _ _ _ _ _ _ (Or.inr (by omega)),
      cellAt_updCell_self _ _ _ _ hwf hcx (by omega)]
  · rw [cellAt_markVisited_self _ _ _
        (WF_updCell _ _ _ _ (WF_updCell _ _ _ _ hwf)) hcx hcy,
      cellAt_updCell_self _ _ _ _ (WF_updCell _ _ _ _ hwf) hcx hcy,
      cellAt_updCell_ne _ _ _ _ _ _ (Or.inr (by omega))]
  · intro a b h1 h2
    rw [cellAt_markVisited_ne _ _ _ _ _ h2, cellAt_updCell_ne _ _ _ _ _ _ h2,
      cellAt_updCell_ne _ _ _ _ _ _ h1]

/-! ## Counting removed walls and visited cells -/

/-- The grid positions of a `w × h` maze. -/
def gridPoints (w h : Nat) : Finset (Nat × Nat) :=
  Finset.range w ×ˢ Finset.range h

/-- Number of visited cells. -/
def visitedCount (m : Maze) : Nat :=
  ((gridPoints m.width m.height).filter
    (fun p => (m.cellAt p.1 p.2).visited = true)).card

/-- Number of removed inter-cell wall pairs, each counted once through its
canonical flag: the east wall of the left cell for a horizontal pair, the
south wall of the upper cell for a vertical pair. -/
def removedPairs (m : Maze) : Nat :=
  ((gridPoints (m.width - 1) m.height).filter
    (fun p => (m.cellAt p.1 p.2).east = false)).card +
  ((gridPoints m.width (m.height - 1)).filter
    (fun p => (m.cellAt p.1 p.2).south = false)).card

theorem card_filter_congr {s : Finset (Nat × Nat)} {p q : Nat × Nat → Prop}
    [DecidablePred p] [DecidablePred q]
    (h : ∀ j ∈ s, p j ↔ q j) : (s.filter p).card = (s.filter q).card := by
  rw [Finset.filter_congr h]

theorem card_filter_flip {s : Finset (Nat × Nat)} {p q : Nat × Nat → Prop}
    [DecidablePred p] [DecidablePred q] (i : Nat × Nat)
    (hi : i ∈ s) (hag : ∀ j ∈ s, j ≠ i → (p j ↔ q j))
    (hpi : ¬ p i) (hqi : q i) :
    (s.filter q).card = (s.filter p).card + 1 := by
  have hins : s.filter q = insert i (s.filter p) := by
    ext j
    simp only [Finset.mem_filter, Finset.mem_insert]
    constructor
    · rintro ⟨hjs, hqj⟩
      by_cases hji : j = i
      · exact Or.inl hji
      · exact Or.inr ⟨hjs, (hag j hjs hji).mpr hqj⟩
    · rintro (rfl | ⟨hjs, hpj⟩)
      · exact ⟨hi, hqi⟩
      · have hji : j ≠ i := fun h => hpi (h ▸ hpj)
        exact ⟨hjs, (hag j hjs hji).mp hpj⟩
  rw [hins, Finset.card_insert_of_not_mem]
  simp only [Finset.mem_filter, not_and]
  exact fun _ => hpi

theorem visitedCount_le (m : Maze) :
    visitedCount m ≤ m.width * m.height := by
  have := Finset.card_filter_le (gridPoints m.width m.height)
    (fun p => (m.cellAt p.1 p.2).visited = true)
  simpa [gridPoints, Finset.card_product] using this

/-! ## Open-wall adjacency and the generation invariant -/

/-- Horizontal corridor between `(x, y)` and `(x + 1, y)` (canonical flag:
the east wall of the left cell is absent). -/
def HAdj (m : Maze) (x y : Nat) : Prop :=
  x + 1 < m.width ∧ y < m.height ∧ (m.cellAt x y).east = false

/-- Vertical corridor between `(x, y)` and `(x, y + 1)` (canonical flag:
the south wall of the upper cell is absent). -/
def VAdj (m : Maze) (x y : Nat) : Prop :=
  x < m.width ∧ y + 1 < m.height ∧ (m.cellAt x y).south = false

/-- Two cells joined by an open corridor (symmetric by construction). -/
def EdgeOpen (m : Maze) (p q : Nat × Nat) : Prop :=
  (q = (p.1 + 1, p.2) ∧ HAdj m p.1 p.2) ∨
  (p = (q.1 + 1, q.2) ∧ HAdj m q.1 q.2) ∨
  (q = (p.1, p.2 + 1) ∧ VAdj m p.1 p.2) ∨
  (p = (q.1, q.2 + 1) ∧ VAdj m q.1 q.2)

/-- One move through an open wall, phrased as the claim does: the source
cell's wall facing the adjacent destination cell is absent. -/
def OpenStep (m : Maze) (p q : Nat × Nat) : Prop :=
  p.1 < m.width ∧ p.2 < m.height ∧ q.1 < m.width ∧ q.2 < m.height ∧
  ((q = (p.1 + 1, p.2) ∧ (m.cellAt p.1 p.2).east = false) ∨
   (p = (q.1 + 1, q.2) ∧ (m.cellAt p.1 p.2).west = false) ∨
   (q = (p.1, p.2 + 1) ∧ (m.cellAt p.1 p.2).south = false) ∨
   (p = (q.1, q.2 + 1) ∧ (m.cellAt p.1 p.2).north = false))

/-- Wall symmetry: for every adjacent pair the two facing wall flags agree,
so one is absent exactly when the other is. -/
def WallSym (m : Maze) : Prop :=
  (∀ x y, x + 1 < m.width → y < m.height →
    (m.cellAt x y).east = (m.cellAt (x + 1) y).west) ∧
  (∀ x y, x < m.width → y + 1 < m.height →
    (m.cellAt x y).south = (m.cellAt x (y + 1)).north)

/-- During generation, an unvisited cell still has all four walls. -/
def UnvisitedWalls (m : Maze) : Prop :=
  ∀ x y, x < m.width → y < m.height → (m.cellAt x y).visited = false →
    (m.cellAt x y).north = true ∧ (m.cellAt x y).east = true ∧
    (m.cellAt x y).south = true ∧ (m.cellAt x y).west = true

/-- Reachability along open corridors. -/
def Reach (m : Maze) (p q : Nat × Nat) : Prop :=
  Relation.ReflTransGen (EdgeOpen m) p q

/-- Every visited cell is reachable from the start cell. -/
def VisitedConn (m : Maze) (s : Nat × Nat) : Prop :=
  ∀ p : Nat × Nat, p.1 < m.width → p.2 < m.height →
    (m.cellAt p.1 p.2).visited = true → Reach m s p

/-- Frontier entries are in-bounds visited cells. -/
def FrontierOK (m : Maze) (fr : List (Nat × Nat)) : Prop :=
  ∀ p ∈ fr, p.1 < m.width ∧ p.2 < m.height ∧
    (m.cellAt p.1 p.2).visited = true

/-- Every visited cell that still has an unvisited neighbour is on the
frontier. -/
def FrontierCover (m : Maze) (fr : List (Nat × Nat)) : Prop :=
  ∀ x y, x < m.width → y < m.height → (m.cellAt x y).visited = true →
    m.get_unvisited_neighbors x y ≠ [] → (x, y) ∈ fr

/-- Loop invariant of `Maze::generate`, for start cell `s`. -/
structure GenInv (m : Maze) (s : Nat × Nat) (fr : List (Nat × Nat)) : Prop where
  wf : m.WF
  sym : WallSym m
  uw : UnvisitedWalls m
  conn : VisitedConn m s
  fok : FrontierOK m fr
  fcov : FrontierCover m fr
  vcount : visitedCount m = removedPairs m + 1
  sxlt : s.1 < m.width
  sylt : s.2 < m.height
  svis : (m.cellAt s.1 s.2).visited = true

theorem EdgeOpen_symm {m : Maze} {p q : Nat × Nat} (h : EdgeOpen m p q) :
    EdgeOpen m q p := by
  rcases h with h | h | h | h
  · exact Or.inr (Or.inl h)
  · exact Or.inl h
  · exact Or.inr (Or.inr (Or.inr h))
  · exact Or.inr (Or.inr (Or.inl h))

theorem Reach_symm {m : Maze} {p q : Nat × Nat} (h : Reach m p q) :
    Reach m q p :=
  Relation.ReflTransGen.symmetric (fun _ _ => EdgeOpen_symm) h

/-! ## Membership in `get_unvisited_neighbors` -/

theorem mem_if_singleton {A : Prop} [Decidable A] {p u : Nat × Nat} :
    (p ∈ if A then [u] else ([] : List (Nat × Nat))) ↔ A ∧ p = u := by
  by_cases hA : A
  · rw [if_pos hA]
    simp [hA]
  · rw [if_neg hA]
    simp [hA]

theorem if_singleton_eq_nil {A : Prop} [Decidable A] {u : Nat × Nat} :
    (if A then [u] else ([] : List (Nat × Nat))) = [] ↔ ¬A := by
  by_cases hA : A
  · rw [if_pos hA]
    simp [hA]
  · rw [if_neg hA]
    simp [hA]

theorem mem_unvisited_neighbors {m : Maze} {x y : Nat} {p : Nat × Nat}
    (h : p ∈ m.get_unvisited_neighbors x y) :
    (0 < x ∧ p = (x - 1, y) ∧ (m.cellAt (x - 1) y).visited = false) ∨
    (x < m.width - 1 ∧ p = (x + 1, y) ∧
      (m.cellAt (x + 1) y).visited = false) ∨
    (0 < y ∧ p = (x, y - 1) ∧ (m.cellAt x (y - 1)).visited = false) ∨
    (y < m.height - 1 ∧ p = (x, y + 1) ∧
      (m.cellAt x (y + 1)).visited = false) := by
  unfold Maze.get_unvisited_neighbors at h
  simp only [List.mem_append, mem_if_singleton] at h
  tauto

theorem unvisited_neighbors_ne_nil {m : Maze} {x y : Nat} :
    m.get_unvisited_neighbors x y ≠ [] ↔
    ((0 < x ∧ (m.cellAt (x - 1) y).visited = false) ∨
     (x < m.width - 1 ∧ (m.cellAt (x + 1) y).visited = false) ∨
     (0 < y ∧ (m.cellAt x (y - 1)).visited = false) ∨
     (y < m.height - 1 ∧ (m.cellAt x (y + 1)).visited = false)) := by
  unfold Maze.get_unvisited_neighbors
  rw [ne_eq, List.append_eq_nil, List.append_eq_nil, List.append_eq_nil]
  rw [if_singleton_eq_nil, if_singleton_eq_nil, if_singleton_eq_nil,
    if_singleton_eq_nil]
  tauto

/-! ## Direction-independent preservation lemmas

One generation step replaces `m` by a maze `m1` that agrees with `m` except
that cell `(cx, cy)` lost the wall facing `(nx, ny)`, and `(nx, ny)` lost
the facing wall and became visited.  These lemmas derive the invariant
pieces that do not depend on the direction of the step. -/

theorem EdgeOpen_mono {m m1 : Maze} (hdw : m1.width = m.width)
    (hdh : m1.height = m.height)
    (heast : ∀ a b, (m.cellAt a b).east = false → (m1.cellAt a b).east = false)
    (hsouth : ∀ a b, (m.cellAt a b).south = false →
      (m1.cellAt a b).south = false)
    {p q : Nat × Nat} (h : EdgeOpen m p q) : EdgeOpen m1 p q := by
  unfold EdgeOpen HAdj VAdj at h ⊢
  rw [hdw, hdh]
  rcases h with ⟨h1, h2, h3, h4⟩ | ⟨h1, h2, h3, h4⟩ | ⟨h1, h2, h3, h4⟩ |
    ⟨h1, h2, h3, h4⟩
  · exact Or.inl ⟨h1, h2, h3, heast _ _ h4⟩
  · exact Or.inr (Or.inl ⟨h1, h2, h3, heast _ _ h4⟩)
  · exact Or.inr (Or.inr (Or.inl ⟨h1, h2, h3, hsouth _ _ h4⟩))
  · exact Or.inr (Or.inr (Or.inr ⟨h1, h2, h3, hsouth _ _ h4⟩))

theorem Reach_mono {m m1 : Maze} (hdw : m1.width = m.width)
    (hdh : m1.height = m.height)
    (heast : ∀ a b, (m.cellAt a b).east = false → (m1.cellAt a b).east = false)
    (hsouth : ∀ a b, (m.cellAt a b).south = false →
      (m1.cellAt a b).south = false)
    {p q : Nat × Nat} (h : Reach m p q) : Reach m1 p q :=
  Relation.ReflTransGen.mono (fun _ _ hr =>
    EdgeOpen_mono hdw hdh heast hsouth hr) h

theorem VisitedConn_step {m m1 : Maze} {s : Nat × Nat} {cx cy nx ny : Nat}
    (hdw : m1.width = m.width) (hdh : m1.height = m.height)
    (heast : ∀ a b, (m.cellAt a b).east = false → (m1.cellAt a b).east = false)
    (hsouth : ∀ a b, (m.cellAt a b).south = false →
      (m1.cellAt a b).south = false)
    (hvis_pres : ∀ a b, ¬(a = nx ∧ b = ny) →
      (m1.cellAt a b).visited = (m.cellAt a b).visited)
    (hedge : EdgeOpen m1 (cx, cy) (nx, ny))
    (hcx : cx < m.width) (hcy : cy < m.height)
    (hcvis : (m.cellAt cx cy).visited = true)
    (hconn : VisitedConn m s) : VisitedConn m1 s := by
  intro p hp1 hp2 hpvis
  by_cases hpn : p.1 = nx ∧ p.2 = ny
  · have hreach_c : Reach m1 s (cx, cy) :=
      Reach_mono hdw hdh heast hsouth (hconn (cx, cy) hcx hcy hcvis)
    have : Reach m1 s (nx, ny) := hreach_c.tail hedge
    have hp : p = (nx, ny) := Prod.ext hpn.1 hpn.2
    rw [hp]
    exact this
  · have := hvis_pres p.1 p.2 hpn
    rw [this] at hpvis
    exact Reach_mono hdw hdh heast hsouth
      (hconn p (by omega) (by omega) hpvis)

theorem FrontierOK_step {m m1 : Maze} {cx cy nx ny : Nat}
    {rest : List (Nat × Nat)}
    (hdw : m1.width = m.width) (hdh : m1.height = m.height)
    (hvismono : ∀ a b, (m.cellAt a b).visited = true →
      (m1.cellAt a b).visited = true)
    (hnx : nx < m.width) (hny : ny < m.height)
    (hvisn : (m1.cellAt nx ny).visited = true)
    (hfok : FrontierOK m ((cx, cy) :: rest)) :
    FrontierOK m1 (rest ++ [(cx, cy), (nx, ny)]) := by
  intro p hp
  rw [List.mem_append] at hp
  rcases hp with hp | hp
  · rcases hfok p (List.mem_cons_of_mem _ hp) with ⟨h1, h2, h3⟩
    exact ⟨by omega, by omega, hvismono _ _ h3⟩
  · have hp2 : p = (cx, cy) ∨ p = (nx, ny) := by simpa using hp
    rcases hp2 with hp | hp
    · rcases hfok (cx, cy) (List.mem_cons_self _ _) with ⟨h1, h2, h3⟩
      rw [hp]
      exact ⟨by omega, by omega, hvismono _ _ h3⟩
    · rw [hp]
      exact ⟨by omega, by omega, hvisn⟩

theorem FrontierCover_step {m m1 : Maze} {cx cy nx ny : Nat}
    {rest : List (Nat × Nat)}
    (hdw : m1.width = m.width) (hdh : m1.height = m.height)
    (hvis_pres : ∀ a b, ¬(a = nx ∧ b = ny) →
      (m1.cellAt a b).visited = (m.cellAt a b).visited)
    (hvisn : (m1.cellAt nx ny).visited = true)
    (hfcov : FrontierCover m ((cx, cy) :: rest)) :
    FrontierCover m1 (rest ++ [(cx, cy), (nx, ny)]) := by
  intro x y hx hy hvis hne
  by_cases hxyn : x = nx ∧ y = ny
  · rw [List.mem_append]
    exact Or.inr (by simp [hxyn.1, hxyn.2])
  · by_cases hxyc : x = cx ∧ y = cy
    · rw [List.mem_append]
      exact Or.inr (by simp [hxyc.1, hxyc.2])
    · have hvism : (m.cellAt x y).visited = true := by
        rw [← hvis_pres x y hxyn]
        exact hvis
      have hnem : m.get_unvisited_neighbors x y ≠ [] := by
        rw [unvisited_neighbors_ne_nil]
        rw [unvisited_neighbors_ne_nil] at hne
        have conv : ∀ a b, (m1.cellAt a b).visited = false →
            (m.cellAt a b).visited = false := by
          intro a b hab
          by_cases habn : a = nx ∧ b = ny
          · rw [habn.1, habn.2] at hab
            rw [hvisn] at hab
            exact absurd hab (by simp)
          · rw [← hvis_pres a b habn]
            exact hab
        rw [hdw, hdh] at hne
        rcases hne with ⟨h1, h2⟩ | ⟨h1, h2⟩ | ⟨h1, h2⟩ | ⟨h1, h2⟩
        · exact Or.inl ⟨h1, conv _ _ h2⟩
        · exact Or.inr (Or.inl ⟨h1, conv _ _ h2⟩)
        · exact Or.inr (Or.inr (Or.inl ⟨h1, conv _ _ h2⟩))
        · exact Or.inr (Or.inr (Or.inr ⟨h1, conv _ _ h2⟩))
      have := hfcov x y (by omega) (by omega) hvism hnem
      rcases List.mem_cons.mp this with heq | hmem
      · rw [List.mem_append]
        exact Or.inr (by simp [heq])
      · rw [List.mem_append]
        exact Or.inl hmem

theorem UnvisitedWalls_step {m m1 : Maze} {cx cy nx ny : Nat}
    (hdw : m1.width = m.width) (hdh : m1.height = m.height)
    (hother : ∀ a b, ¬(a = cx ∧ b = cy) → ¬(a = nx ∧ b = ny) →
      m1.cellAt a b = m.cellAt a b)
    (hcvis1 : (m1.cellAt cx cy).visited = (m.cellAt cx cy).visited)
    (hcvis : (m.cellAt cx cy).visited = true)
    (hvisn : (m1.cellAt nx ny).visited = true)
    (huw : UnvisitedWalls m) : UnvisitedWalls m1 := by
  intro x y hx hy hunvis
  by_cases hxyn : x = nx ∧ y = ny
  · rw [hxyn.1, hxyn.2, hvisn] at hunvis
    exact absurd hunvis (by simp)
  · by_cases hxyc : x = cx ∧ y = cy
    · rw [hxyc.1, hxyc.2, hcvis1, hcvis] at hunvis
      exact absurd hunvis (by simp)
    · rw [hother x y hxyc hxyn] at hunvis ⊢
      exact huw x y (by omega) (by omega) hunvis

theorem visitedCount_step {m m1 : Maze} (nx ny : Nat)
    (hdw : m1.width = m.width) (hdh : m1.height = m.height)
    (hvis_pres : ∀ a b, ¬(a = nx ∧ b = ny) →
      (m1.cellAt a b).visited = (m.cellAt a b).visited)
    (hnx : nx < m.width) (hny : ny < m.height)
    (hnvis : (m.cellAt nx ny).visited = false)
    (hvisn : (m1.cellAt nx ny).visited = true) :
    visitedCount m1 = visitedCount m + 1 := by
  unfold visitedCount
  rw [hdw, hdh]
  refine card_filter_flip (nx, ny) ?_ ?_ ?_ ?_
  · simp [gridPoints, Finset.mem_product, Finset.mem_range, hnx, hny]
  · intro j _ hj
    have hj2 : ¬(j.1 = nx ∧ j.2 = ny) := by
      intro hc
      exact hj (Prod.ext hc.1 hc.2)
    rw [hvis_pres j.1 j.2 hj2]
  · rw [hnvis]
    simp
  · exact hvisn

/-! ## Invariant preservation, one lemma per step direction -/

theorem genInv_step_east (m : Maze) (s : Nat × Nat) (cx cy : Nat)
    (rest : List (Nat × Nat)) (hInv : GenInv m s ((cx, cy) :: rest))
    (hcx : cx < m.width - 1)
    (hnvis : (m.cellAt (cx + 1) cy).visited = false) :
    GenInv ((m.remove_wall cx cy (cx + 1) cy).markVisited (cx + 1) cy) s
      (rest ++ [(cx, cy), (cx + 1, cy)]) ∧
    visitedCount ((m.remove_wall cx cy (cx + 1) cy).markVisited (cx + 1) cy)
      = visitedCount m + 1 := by
  obtain ⟨hcxw, hcy, hcvis⟩ := hInv.fok (cx, cy) (List.mem_cons_self _ _)
  have hcx1 : cx + 1 < m.width := by omega
  obtain ⟨hC, hN, hO⟩ := stepCells_east m cx cy hInv.wf hcx1 hcy
  set m1 := (m.remove_wall cx cy (cx + 1) cy).markVisited (cx + 1) cy with hm1
  have hdw : m1.width = m.width := by
    rw [hm1, markVisited_width, remove_wall_width]
  have hdh : m1.height = m.height := by
    rw [hm1, markVisited_height, remove_wall_height]
  have hwf1 : m1.WF := WF_markVisited _ _ _ (WF_remove_wall _ _ _ _ _ hInv.wf)
  have hvisn : (m1.cellAt (cx + 1) cy).visited = true := by rw [hN]
  have hcvis1 : (m1.cellAt cx cy).visited = (m.cellAt cx cy).visited := by
    rw [hC]
  have hvis_pres : ∀ a b, ¬(a = cx + 1 ∧ b = cy) →
      (m1.cellAt a b).visited = (m.cellAt a b).visited := by
    intro a b hab
    by_cases habc : a = cx ∧ b = cy
    · rw [habc.1, habc.2, hC]
    · rw [hO a b (by tauto) (by tauto)]
  have heast_pres : ∀ a b, ¬(a = cx ∧ b = cy) →
      (m1.cellAt a b).east = (m.cellAt a b).east := by
    intro a b hab
    by_cases habn : a = cx + 1 ∧ b = cy
    · rw [habn.1, habn.2, hN]
    · rw [hO a b (by tauto) (by tauto)]
  have hwest_pres : ∀ a b, ¬(a = cx + 1 ∧ b = cy) →
      (m1.cellAt a b).west = (m.cellAt a b).west := by
    intro a b hab
    by_cases habc : a = cx ∧ b = cy
    · rw [habc.1, habc.2, hC]
    · rw [hO a b (by tauto) (by tauto)]
  have hsouthall : ∀ a b, (m1.cellAt a b).south = (m.cellAt a b).south := by
    intro a b
    by_cases habc : a = cx ∧ b = cy
    · rw [habc.1, habc.2, hC]
    · by_cases habn : a = cx + 1 ∧ b = cy
      · rw [habn.1, habn.2, hN]
      · rw [hO a b (by tauto) (by tauto)]
  have hnorthall : ∀ a b, (m1.cellAt a b).north = (m.cellAt a b).north := by
    intro a b
    by_cases habc : a = cx ∧ b = cy
    · rw [habc.1, habc.2, hC]
    · by_cases habn : a = cx + 1 ∧ b = cy
      · rw [habn.1, habn.2, hN]
      · rw [hO a b (by tauto) (by tauto)]
  have heast : ∀ a b, (m.cellAt a b).east = false →
      (m1.cellAt a b).east = false := by
    intro a b hab
    by_cases habc : a = cx ∧ b = cy
    · rw [habc.1, habc.2, hC]
    · rw [heast_pres a b habc]
      exact hab
  have hsouth : ∀ a b, (m.cellAt a b).south = false →
      (m1.cellAt a b).south = false := by
    intro a b hab
    rw [hsouthall a b]
    exact hab
  have hvismono : ∀ a b, (m.cellAt a b).visited = true →
      (m1.cellAt a b).visited = true := by
    intro a b hab
    by_cases habn : a = cx + 1 ∧ b = cy
    · rw [habn.1, habn.2]
      exact hvisn
    · rw [hvis_pres a b habn]
      exact hab
  have hedge : EdgeOpen m1 (cx, cy) (cx + 1, cy) := by
    refine Or.inl ⟨rfl, ?_, ?_, ?_⟩
    · rw [hdw]
      exact hcx1
    · rw [hdh]
      exact hcy
    · rw [hC]
  obtain ⟨hsE, hsS⟩ := hInv.sym
  have hsym : WallSym m1 := by
    constructor
    · intro x y hxw hyh
      rw [hdw] at hxw
      rw [hdh] at hyh
      by_cases h1 : x = cx ∧ y = cy
      · rw [h1.1, h1.2, hC, hN]
      · have hpart : ¬(x + 1 = cx + 1 ∧ y = cy) := by
          intro hc
          exact h1 ⟨by omega, hc.2⟩
        rw [heast_pres x y h1, hwest_pres (x + 1) y hpart]
        exact hsE x y hxw hyh
    · intro x y hxw hyh
      rw [hdw] at hxw
      rw [hdh] at hyh
      rw [hsouthall x y, hnorthall x (y + 1)]
      exact hsS x y hxw hyh
  have hother : ∀ a b, ¬(a = cx ∧ b = cy) → ¬(a = cx + 1 ∧ b = cy) →
      m1.cellAt a b = m.cellAt a b := by
    intro a b h1 h2
    exact hO a b (by tauto) (by tauto)
  have huw1 : UnvisitedWalls m1 :=
    UnvisitedWalls_step hdw hdh hother hcvis1 hcvis hvisn hInv.uw
  have hconn1 : VisitedConn m1 s :=
    VisitedConn_step hdw hdh heast hsouth hvis_pres hedge hcxw hcy hcvis
      hInv.conn
  have hfok1 : FrontierOK m1 (rest ++ [(cx, cy), (cx + 1, cy)]) :=
    FrontierOK_step hdw hdh hvismono hcx1 hcy hvisn hInv.fok
  have hfcov1 : FrontierCover m1 (rest ++ [(cx, cy), (cx + 1, cy)]) :=
    FrontierCover_step hdw hdh hvis_pres hvisn hInv.fcov
  have hvc1 : visitedCount m1 = visitedCount m + 1 :=
    visitedCount_step (cx + 1) cy hdw hdh hvis_pres hcx1 hcy hnvis hvisn
  have hrp1 : removedPairs m1 = removedPairs m + 1 := by
    unfold removedPairs
    rw [hdw, hdh]
    have hfirst : ((gridPoints (m.width - 1) m.height).filter
        (fun p => (m1.cellAt p.1 p.2).east = false)).card =
        ((gridPoints (m.width - 1) m.height).filter
          (fun p => (m.cellAt p.1 p.2).east = false)).card + 1 := by
      refine card_filter_flip (cx, cy) ?_ ?_ ?_ ?_
      · simp only [gridPoints, Finset.mem_product, Finset.mem_range]
        exact ⟨hcx, hcy⟩
      · intro j _ hne
        have hj : ¬(j.1 = cx ∧ j.2 = cy) := by
          intro hc
          exact hne (Prod.ext hc.1 hc.2)
        rw [heast_pres j.1 j.2 hj]
      · have hwn : (m.cellAt (cx + 1) cy).west = true :=
          (hInv.uw (cx + 1) cy hcx1 hcy hnvis).2.2.2
        rw [hsE cx cy hcx1 hcy, hwn]
        simp
      · rw [hC]
    have hsecond : ((gridPoints m.width (m.height - 1)).filter
        (fun p => (m1.cellAt p.1 p.2).south = false)).card =
        ((gridPoints m.width (m.height - 1)).filter
          (fun p => (m.cellAt p.1 p.2).south = false)).card :=
      card_filter_congr (fun j _ => by rw [hsouthall j.1 j.2])
    omega
  have hvcount1 : visitedCount m1 = removedPairs m1 + 1 := by
    rw [hvc1, hrp1, hInv.vcount]
  refine ⟨⟨hwf1, hsym, huw1, hconn1, hfok1, hfcov1, hvcount1, ?_, ?_, ?_⟩,
    hvc1⟩
  · rw [hdw]
    exact hInv.sxlt
  · rw [hdh]
    exact hInv.sylt
  · exact hvismono s.1 s.2 hInv.svis

theorem genInv_step_west (m : Maze) (s : Nat × Nat) (cx cy : Nat)
    (rest : List (Nat × Nat)) (hInv : GenInv m s ((cx, cy) :: rest))
    (hcx0 : 0 < cx)
    (hnvis : (m.cellAt (cx - 1) cy).visited = false) :
    GenInv ((m.remove_wall cx cy (cx - 1) cy).markVisited (cx - 1) cy) s
      (rest ++ [(cx, cy), (cx - 1, cy)]) ∧
    visitedCount ((m.remove_wall cx cy (cx - 1) cy).markVisited (cx - 1) cy)
      = visitedCount m + 1 := by
  obtain ⟨hcxw, hcy, hcvis⟩ := hInv.fok (cx, cy) (List.mem_cons_self _ _)
  have hnx : cx - 1 < m.width := by omega
  obtain ⟨hC, hN, hO⟩ := stepCells_west m cx cy hInv.wf hcx0 hcxw hcy
  set m1 := (m.remove_wall cx cy (cx - 1) cy).markVisited (cx - 1) cy with hm1
  have hdw : m1.width = m.width := by
    rw [hm1, markVisited_width, remove_wall_width]
  have hdh : m1.height = m.height := by
    rw [hm1, markVisited_height, remove_wall_height]
  have hwf1 : m1.WF := WF_markVisited _ _ _ (WF_remove_wall _ _ _ _ _ hInv.wf)
  have hvisn : (m1.cellAt (cx - 1) cy).visited = true := by rw [hN]
  have hcvis1 : (m1.cellAt cx cy).visited = (m.cellAt cx cy).visited := by
    rw [hC]
  have hvis_pres : ∀ a b, ¬(a = cx - 1 ∧ b = cy) →
      (m1.cellAt a b).visited = (m.cellAt a b).visited := by
    intro a b hab
    by_cases habc : a = cx ∧ b = cy
    · rw [habc.1, habc.2, hC]
    · rw [hO a b (by tauto) (by tauto)]
  have heast_pres : ∀ a b, ¬(a = cx - 1 ∧ b = cy) →
      (m1.cellAt a b).east = (m.cellAt a b).east := by
    intro a b hab
    by_cases habc : a = cx ∧ b = cy
    · rw [habc.1, habc.2, hC]
    · rw [hO a b (by tauto) (by tauto)]
  have hwest_pres : ∀ a b, ¬(a = cx ∧ b = cy) →
      (m1.cellAt a b).west = (m.cellAt a b).west := by
    intro a b hab
    by_cases habn : a = cx - 1 ∧ b = cy
    · rw [habn.1, habn.2, hN]
    · rw [hO a b (by tauto) (by tauto)]
  have hsouthall : ∀ a b, (m1.cellAt a b).south = (m.cellAt a b).south := by
    intro a b
    by_cases habc : a = cx ∧ b = cy
    · rw [habc.1, habc.2, hC]
    · by_cases habn : a = cx - 1 ∧ b = cy
      · rw [habn.1, habn.2, hN]
      · rw [hO a b (by tauto) (by tauto)]
  have hnorthall : ∀ a b, (m1.cellAt a b).north = (m.cellAt a b).north := by
    intro a b
    by_cases habc : a = cx ∧ b = cy
    · rw [habc.1, habc.2, hC]
    · by_cases habn : a = cx - 1 ∧ b = cy
      · rw [habn.1, habn.2, hN]
      · rw [hO a b (by tauto) (by tauto)]
  have heast : ∀ a b, (m.cellAt a b).east = false →
      (m1.cellAt a b).east = false := by
    intro a b hab
    by_cases habn : a = cx - 1 ∧ b = cy
    · rw [habn.1, habn.2, hN]
    · rw [heast_pres a b habn]
      exact hab
  have hsouth : ∀ a b, (m.cellAt a b).south = false →
      (m1.cellAt a b).south = false := by
    intro a b hab
    rw [hsouthall a b]
    exact hab
  have hvismono : ∀ a b, (m.cellAt a b).visited = true →
      (m1.cellAt a b).visited = true := by
    intro a b hab
    by_cases habn : a = cx - 1 ∧ b = cy
    · rw [habn.1, habn.2]
      exact hvisn
    · rw [hvis_pres a b habn]
      exact hab
  have hedge : EdgeOpen m1 (cx, cy) (cx - 1, cy) := by
    refine Or.inr (Or.inl ⟨Prod.ext (by omega) rfl, ?_, ?_, ?_⟩)
    · rw [hdw]
      omega
    · rw [hdh]
      exact hcy
    · rw [hN]
  obtain ⟨hsE, hsS⟩ := hInv.sym
  have hsym : WallSym m1 := by
    constructor
    · intro x y hxw hyh
      rw [hdw] at hxw
      rw [hdh] at hyh
      by_cases h1 : x = cx - 1 ∧ y = cy
      · rw [h1.1, h1.2, hN, show cx - 1 + 1 = cx from by omega, hC]
      · have hpart : ¬(x + 1 = cx ∧ y = cy) := by
          intro hc
          exact h1 ⟨by omega, hc.2⟩
        rw [heast_pres x y h1, hwest_pres (x + 1) y hpart]
        exact hsE x y hxw hyh
    · intro x y hxw hyh
      rw [hdw] at hxw
      rw [hdh] at hyh
      rw [hsouthall x y, hnorthall x (y + 1)]
      exact hsS x y hxw hyh
  have hother : ∀ a b, ¬(a = cx ∧ b = cy) → ¬(a = cx - 1 ∧ b = cy) →
      m1.cellAt a b = m.cellAt a b := by
    intro a b h1 h2
    exact hO a b (by tauto) (by tauto)
  have huw1 : UnvisitedWalls m1 :=
    UnvisitedWalls_step hdw hdh hother hcvis1 hcvis hvisn hInv.uw
  have hconn1 : VisitedConn m1 s :=
    VisitedConn_step hdw hdh heast hsouth hvis_pres hedge hcxw hcy hcvis
      hInv.conn
  have hfok1 : FrontierOK m1 (rest ++ [(cx, cy), (cx - 1, cy)]) :=
    FrontierOK_step hdw hdh hvismono hnx hcy hvisn hInv.fok
  have hfcov1 : FrontierCover m1 (rest ++ [(cx, cy), (cx - 1, cy)]) :=
    FrontierCover_step hdw hdh hvis_pres hvisn hInv.fcov
  have hvc1 : visitedCount m1 = visitedCount m + 1 :=
    visitedCount_step (cx - 1) cy hdw hdh hvis_pres hnx hcy hnvis hvisn
  have hrp1 : removedPairs m1 = removedPairs m + 1 := by
    unfold removedPairs
    rw [hdw, hdh]
    have hfirst : ((gridPoints (m.width - 1) m.height).filter
        (fun p => (m1.cellAt p.1 p.2).east = false)).card =
        ((gridPoints (m.width - 1) m.height).filter
          (fun p => (m.cellAt p.1 p.2).east = false)).card + 1 := by
      refine card_filter_flip (cx - 1, cy) ?_ ?_ ?_ ?_
      · simp only [gridPoints, Finset.mem_product, Finset.mem_range]
        exact ⟨by omega, hcy⟩
      · intro j _ hne
        have hj : ¬(j.1 = cx - 1 ∧ j.2 = cy) := by
          intro hc
          exact hne (Prod.ext hc.1 hc.2)
        rw [heast_pres j.1 j.2 hj]
      · have hen : (m.cellAt (cx - 1) cy).east = true :=
          (hInv.uw (cx - 1) cy hnx hcy hnvis).2.1
        rw [hen]
        simp
      · rw [hN]
    have hsecond : ((gridPoints m.width (m.height - 1)).filter
        (fun p => (m1.cellAt p.1 p.2).south = false)).card =
        ((gridPoints m.width (m.height - 1)).filter
          (fun p => (m.cellAt p.1 p.2).south = false)).card :=
      card_filter_congr (fun j _ => by rw [hsouthall j.1 j.2])
    omega
  have hvcount1 : visitedCount m1 = removedPairs m1 + 1 := by
    rw [hvc1, hrp1, hInv.vcount]
  refine ⟨⟨hwf1, hsym, huw1, hconn1, hfok1, hfcov1, hvcount1, ?_, ?_, ?_⟩,
    hvc1⟩
  · rw [hdw]
    exact hInv.sxlt
  · rw [hdh]
    exact hInv.sylt
  · exact hvismono s.1 s.2 hInv.svis

theorem genInv_step_north (m : Maze) (s : Nat × Nat) (cx cy : Nat)
    (rest : List (Nat × Nat)) (hInv : GenInv m s ((cx, cy) :: rest))
    (hcy0 : 0 < cy)
    (hnvis : (m.cellAt cx (cy - 1)).visited = false) :
    GenInv ((m.remove_wall cx cy cx (cy - 1)).markVisited cx (cy - 1)) s
      (rest ++ [(cx, cy), (cx, cy - 1)]) ∧
    visitedCount ((m.remove_wall cx cy cx (cy - 1)).markVisited cx (cy - 1))
      = visitedCount m + 1 := by
  obtain ⟨hcxw, hcy, hcvis⟩ := hInv.fok (cx, cy) (List.mem_cons_self _ _)
  have hny : cy - 1 < m.height := by omega
  obtain ⟨hC, hN, hO⟩ := stepCells_north m cx cy hInv.wf hcy0 hcxw hcy
  set m1 := (m.remove_wall cx cy cx (cy - 1)).markVisited cx (cy - 1) with hm1
  have hdw : m1.width = m.width := by
    rw [hm1, markVisited_width, remove_wall_width]
  have hdh : m1.height = m.height := by
    rw [hm1, markVisited_height, remove_wall_height]
  have hwf1 : m1.WF := WF_markVisited _ _ _ (WF_remove_wall _ _ _ _ _ hInv.wf)
  have hvisn : (m1.cellAt cx (cy - 1)).visited = true := by rw [hN]
  have hcvis1 : (m1.cellAt cx cy).visited = (m.cellAt cx cy).visited := by
    rw [hC]
  have hvis_pres : ∀ a b, ¬(a = cx ∧ b = cy - 1) →
      (m1.cellAt a b).visited = (m.cellAt a b).visited := by
    intro a b hab
    by_cases habc : a = cx ∧ b = cy
    · rw [habc.1, habc.2, hC]
    · rw [hO a b (by tauto) (by tauto)]
  have hsouth_pres : ∀ a b, ¬(a = cx ∧ b = cy - 1) →
      (m1.cellAt a b).south = (m.cellAt a b).south := by
    intro a b hab
    by_cases habc : a = cx ∧ b = cy
    · rw [habc.1, habc.2, hC]
    · rw [hO a b (by tauto) (by tauto)]
  have hnorth_pres : ∀ a b, ¬(a = cx ∧ b = cy) →
      (m1.cellAt a b).north = (m.cellAt a b).north := by
    intro a b hab
    by_cases habn : a = cx ∧ b = cy - 1
    · rw [habn.1, habn.2, hN]
    · rw [hO a b (by tauto) (by tauto)]
  have heastall : ∀ a b, (m1.cellAt a b).east = (m.cellAt a b).east := by
    intro a b
    by_cases habc : a = cx ∧ b = cy
    · rw [habc.1, habc.2, hC]
    · by_cases habn : a = cx ∧ b = cy - 1
      · rw [habn.1, habn.2, hN]
      · rw [hO a b (by tauto) (by tauto)]
  have hwestall : ∀ a b, (m1.cellAt a b).west = (m.cellAt a b).west := by
    intro a b
    by_cases habc : a = cx ∧ b = cy
    · rw [habc.1, habc.2, hC]
    · by_cases habn : a = cx ∧ b = cy - 1
      · rw [habn.1, habn.2, hN]
      · rw [hO a b (by tauto) (by tauto)]
  have heast : ∀ a b, (m.cellAt a b).east = false →
      (m1.cellAt a b).east = false := by
    intro a b hab
    rw [heastall a b]
    exact hab
  have hsouth : ∀ a b, (m.cellAt a b).south = false →
      (m1.cellAt a b).south = false := by
    intro a b hab
    by_cases habn : a = cx ∧ b = cy - 1
    · rw [habn.1, habn.2, hN]
    · rw [hsouth_pres a b habn]
      exact hab
  have hvismono : ∀ a b, (m.cellAt a b).visited = true →
      (m1.cellAt a b).visited = true := by
    intro a b hab
    by_cases habn : a = cx ∧ b = cy - 1
    · rw [habn.1, habn.2]
      exact hvisn
    · rw [hvis_pres a b habn]
      exact hab
  have hedge : EdgeOpen m1 (cx, cy) (cx, cy - 1) := by
    refine Or.inr (Or.inr (Or.inr ⟨Prod.ext rfl (by omega), ?_, ?_, ?_⟩))
    · rw [hdw]
      exact hcxw
    · rw [hdh]
      omega
    · rw [hN]
  obtain ⟨hsE, hsS⟩ := hInv.sym
  have hsym : WallSym m1 := by
    constructor
    · intro x y hxw hyh
      rw [hdw] at hxw
      rw [hdh] at hyh
      rw [heastall x y, hwestall (x + 1) y]
      exact hsE x y hxw hyh
    · intro x y hxw hyh
      rw [hdw] at hxw
      rw [hdh] at hyh
      by_cases h1 : x = cx ∧ y = cy - 1
      · rw [h1.1, h1.2, hN, show cy - 1 + 1 = cy from by omega, hC]
      · have hpart : ¬(x = cx ∧ y + 1 = cy) := by
          intro hc
          exact h1 ⟨hc.1, by omega⟩
        rw [hsouth_pres x y h1, hnorth_pres x (y + 1)
          (by intro hc; exact hpart ⟨hc.1, hc.2⟩)]
        exact hsS x y hxw hyh
  have hother : ∀ a b, ¬(a = cx ∧ b = cy) → ¬(a = cx ∧ b = cy - 1) →
      m1.cellAt a b = m.cellAt a b := by
    intro a b h1 h2
    exact hO a b (by tauto) (by tauto)
  have huw1 : UnvisitedWalls m1 :=
    UnvisitedWalls_step hdw hdh hother hcvis1 hcvis hvisn hInv.uw
  have hconn1 : VisitedConn m1 s :=
    VisitedConn_step hdw hdh heast hsouth hvis_pres hedge hcxw hcy hcvis
      hInv.conn
  have hfok1 : FrontierOK m1 (rest ++ [(cx, cy), (cx, cy - 1)]) :=
    FrontierOK_step hdw hdh hvismono hcxw hny hvisn hInv.fok
  have hfcov1 : FrontierCover m1 (rest ++ [(cx, cy), (cx, cy - 1)]) :=
    FrontierCover_step hdw hdh hvis_pres hvisn hInv.fcov
  have hvc1 : visitedCount m1 = visitedCount m + 1 :=
    visitedCount_step cx (cy - 1) hdw hdh hvis_pres hcxw hny hnvis hvisn
  have hrp1 : removedPairs m1 = removedPairs m + 1 := by
    unfold removedPairs
    rw [hdw, hdh]
    have hfirst : ((gridPoints (m.width - 1) m.height).filter
        (fun p => (m1.cellAt p.1 p.2).east = false)).card =
        ((gridPoints (m.width - 1) m.height).filter
          (fun p => (m.cellAt p.1 p.2).east = false)).card :=
      card_filter_congr (fun j _ => by rw [heastall j.1 j.2])
    have hsecond : ((gridPoints m.width (m.height - 1)).filter
        (fun p => (m1.cellAt p.1 p.2).south = false)).card =
        ((gridPoints m.width (m.height - 1)).filter
          (fun p => (m.cellAt p.1 p.2).south = false)).card + 1 := by
      refine card_filter_flip (cx, cy - 1) ?_ ?_ ?_ ?_
      · simp only [gridPoints, Finset.mem_product, Finset.mem_range]
        exact ⟨hcxw, by omega⟩
      · intro j _ hne
        have hj : ¬(j.1 = cx ∧ j.2 = cy - 1) := by
          intro hc
          exact hne (Prod.ext hc.1 hc.2)
        rw [hsouth_pres j.1 j.2 hj]
      · have hsn : (m.cellAt cx (cy - 1)).south = true :=
          (hInv.uw cx (cy - 1) hcxw hny hnvis).2.2.1
        rw [hsn]
        simp
      · rw [hN]
    omega
  have hvcount1 : visitedCount m1 = removedPairs m1 + 1 := by
    rw [hvc1, hrp1, hInv.vcount]
  refine ⟨⟨hwf1, hsym, huw1, hconn1, hfok1, hfcov1, hvcount1, ?_, ?_, ?_⟩,
    hvc1⟩
  · rw [hdw]
    exact hInv.sxlt
  · rw [hdh]
    exact hInv.sylt
  · exact hvismono s.1 s.2 hInv.svis

theorem genInv_step_south (m : Maze) (s : Nat × Nat) (cx cy : Nat)
    (rest : List (Nat × Nat)) (hInv : GenInv m s ((cx, cy) :: rest))
    (hcyh : cy < m.height - 1)
    (hnvis : (m.cellAt cx (cy + 1)).visited = false) :
    GenInv ((m.remove_wall cx cy cx (cy + 1)).markVisited cx (cy + 1)) s
      (rest ++ [(cx, cy), (cx, cy + 1)]) ∧
    visitedCount ((m.remove_wall cx cy cx (cy + 1)).markVisited cx (cy + 1))
      = visitedCount m + 1 := by
  obtain ⟨hcxw, hcy, hcvis⟩ := hInv.fok (cx, cy) (List.mem_cons_self _ _)
  have hny : cy + 1 < m.height := by omega
  obtain ⟨hC, hN, hO⟩ := stepCells_south m cx cy hInv.wf hcxw hny
  set m1 := (m.remove_wall cx cy cx (cy + 1)).markVisited cx (cy + 1) with hm1
  have hdw : m1.width = m.width := by
    rw [hm1, markVisited_width, remove_wall_width]
  have hdh : m1.height = m.height := by
    rw [hm1, markVisited_height, remove_wall_height]
  have hwf1 : m1.WF := WF_markVisited _ _ _ (WF_remove_wall _ _ _ _ _ hInv.wf)
  have hvisn : (m1.cellAt cx (cy + 1)).visited = true := by rw [hN]
  have hcvis1 : (m1.cellAt cx cy).visited = (m.cellAt cx cy).visited := by
    rw [hC]
  have hvis_pres : ∀ a b, ¬(a = cx ∧ b = cy + 1) →
      (m1.cellAt a b).visited = (m.cellAt a b).visited := by
    intro a b hab
    by_cases habc : a = cx ∧ b = cy
    · rw [habc.1, habc.2, hC]
    · rw [hO a b (by tauto) (by tauto)]
  have hsouth_pres : ∀ a b, ¬(a = cx ∧ b = cy) →
      (m1.cellAt a b).south = (m.cellAt a b).south := by
    intro a b hab
    by_cases habn : a = cx ∧ b = cy + 1
    · rw [habn.1, habn.2, hN]
    · rw [hO a b (by tauto) (by tauto)]
  have hnorth_pres : ∀ a b, ¬(a = cx ∧ b = cy + 1) →
      (m1.cellAt a b).north = (m.cellAt a b).north := by
    intro a b hab
    by_cases habc : a = cx ∧ b = cy
    · rw [habc.1, habc.2, hC]
    · rw [hO a b (by tauto) (by tauto)]
  have heastall : ∀ a b, (m1.cellAt a b).east = (m.cellAt a b).east := by
    intro a b
    by_cases habc : a = cx ∧ b = cy
    · rw [habc.1, habc.2, hC]
    · by_cases habn : a = cx ∧ b = cy + 1
      · rw [habn.1, habn.2, hN]
      · rw [hO a b (by tauto) (by tauto)]
  have hwestall : ∀ a b, (m1.cellAt a b).west = (m.cellAt a b).west := by
    intro a b
    by_cases habc : a = cx ∧ b = cy
    · rw [habc.1, habc.2, hC]
    · by_cases habn : a = cx ∧ b = cy + 1
      · rw [habn.1, habn.2, hN]
      · rw [hO a b (by tauto) (by tauto)]
  have heast : ∀ a b, (m.cellAt a b).east = false →
      (m1.cellAt a b).east = false := by
    intro a b hab
    rw [heastall a b]
    exact hab
  have hsouth : ∀ a b, (m.cellAt a b).south = false →
      (m1.cellAt a b).south = false := by
    intro a b hab
    by_cases habc : a = cx ∧ b = cy
    · rw [habc.1, habc.2, hC]
    · rw [hsouth_pres a b habc]
      exact hab
  have hvismono : ∀ a b, (m.cellAt a b).visited = true →
      (m1.cellAt a b).visited = true := by
    intro a b hab
    by_cases habn : a = cx ∧ b = cy + 1
    · rw [habn.1, habn.2]
      exact hvisn
    · rw [hvis_pres a b habn]
      exact hab
  have hedge : EdgeOpen m1 (cx, cy) (cx, cy + 1) := by
    refine Or.inr (Or.inr (Or.inl ⟨rfl, ?_, ?_, ?_⟩))
    · rw [hdw]
      exact hcxw
    · rw [hdh]
      exact hny
    · rw [hC]
  obtain ⟨hsE, hsS⟩ := hInv.sym
  have hsym : WallSym m1 := by
    constructor
    · intro x y hxw hyh
      rw [hdw] at hxw
      rw [hdh] at hyh
      rw [heastall x y, hwestall (x + 1) y]
      exact hsE x y hxw hyh
    · intro x y hxw hyh
      rw [hdw] at hxw
      rw [hdh] at hyh
      by_cases h1 : x = cx ∧ y = cy
      · rw [h1.1, h1.2, hC, hN]
      · have hpart : ¬(x = cx ∧ y + 1 = cy + 1) := by
          intro hc
          exact h1 ⟨hc.1, by omega⟩
        rw [hsouth_pres x y h1, hnorth_pres x (y + 1) hpart]
        exact hsS x y hxw hyh
  have hother : ∀ a b, ¬(a = cx ∧ b = cy) → ¬(a = cx ∧ b = cy + 1) →
      m1.cellAt a b = m.cellAt a b := by
    intro a b h1 h2
    exact hO a b (by tauto) (by tauto)
  have huw1 : UnvisitedWalls m1 :=
    UnvisitedWalls_step hdw hdh hother hcvis1 hcvis hvisn hInv.uw
  have hconn1 : VisitedConn m1 s :=
    VisitedConn_step hdw hdh heast hsouth hvis_pres hedge hcxw hcy hcvis
      hInv.conn
  have hfok1 : FrontierOK m1 (rest ++ [(cx, cy), (cx, cy + 1)]) :=
    FrontierOK_step hdw hdh hvismono hcxw hny hvisn hInv.fok
  have hfcov1 : FrontierCover m1 (rest ++ [(cx, cy), (cx, cy + 1)]) :=
    FrontierCover_step hdw hdh hvis_pres hvisn hInv.fcov
  have hvc1 : visitedCount m1 = visitedCount m + 1 :=
    visitedCount_step cx (cy + 1) hdw hdh hvis_pres hcxw hny hnvis hvisn
  have hrp1 : removedPairs m1 = removedPairs m + 1 := by
    unfold removedPairs
    rw [hdw, hdh]
    have hfirst : ((gridPoints (m.width - 1) m.height).filter
        (fun p => (m1.cellAt p.1 p.2).east = false)).card =
        ((gridPoints (m.width - 1) m.height).filter
          (fun p => (m.cellAt p.1 p.2).east = false)).card :=
      card_filter_congr (fun j _ => by rw [heastall j.1 j.2])
    have hsecond : ((gridPoints m.width (m.height - 1)).filter
        (fun p => (m1.cellAt p.1 p.2).south = false)).card =
        ((gridPoints m.width (m.height - 1)).filter
          (fun p => (m.cellAt p.1 p.2).south = false)).card + 1 := by
      refine card_filter_flip (cx, cy) ?_ ?_ ?_ ?_
      · simp only [gridPoints, Finset.mem_product, Finset.mem_range]
        exact ⟨hcxw, hcyh⟩
      · intro j _ hne
        have hj : ¬(j.1 = cx ∧ j.2 = cy) := by
          intro hc
          exact hne (Prod.ext hc.1 hc.2)
        rw [hsouth_pres j.1 j.2 hj]
      · have hnn : (m.cellAt cx (cy + 1)).north = true :=
          (hInv.uw cx (cy + 1) hcxw hny hnvis).1
        rw [hsS cx cy hcxw hny, hnn]
        simp
      · rw [hC]
    omega
  have hvcount1 : visitedCount m1 = removedPairs m1 + 1 := by
    rw [hvc1, hrp1, hInv.vcount]
  refine ⟨⟨hwf1, hsym, huw1, hconn1, hfok1, hfcov1, hvcount1, ?_, ?_, ?_⟩,
    hvc1⟩
  · rw [hdw]
    exact hInv.sxlt
  · rw [hdh]
    exact hInv.sylt
  · exact hvismono s.1 s.2 hInv.svis

/-- Popping a frontier cell with no unvisited neighbours preserves the
invariant. -/
theorem genInv_skip (m : Maze) (s c : Nat × Nat) (rest : List (Nat × Nat))
    (hInv : GenInv m s (c :: rest))
    (hns : m.get_unvisited_neighbors c.1 c.2 = []) :
    GenInv m s rest := by
  refine ⟨hInv.wf, hInv.sym, hInv.uw, hInv.conn, ?_, ?_, hInv.vcount,
    hInv.sxlt, hInv.sylt, hInv.svis⟩
  · intro p hp
    exact hInv.fok p (List.mem_cons_of_mem _ hp)
  · intro x y hx hy hvis hne
    have := hInv.fcov x y hx hy hvis hne
    rcases List.mem_cons.mp this with heq | hmem
    · have hx1 : x = c.1 := by rw [← heq]
      have hy1 : y = c.2 := by rw [← heq]
      rw [hx1, hy1] at hne
      exact absurd hns hne
    · exact hmem

/-- Dispatch on the direction of the chosen neighbour: a productive step
preserves the invariant and visits exactly one new cell. -/
theorem genInv_step (m : Maze) (s c p : Nat × Nat)
    (rest : List (Nat × Nat)) (hInv : GenInv m s (c :: rest))
    (hp : p ∈ m.get_unvisited_neighbors c.1 c.2) :
    GenInv ((m.remove_wall c.1 c.2 p.1 p.2).markVisited p.1 p.2) s
      (rest ++ [c, p]) ∧
    visitedCount ((m.remove_wall c.1 c.2 p.1 p.2).markVisited p.1 p.2)
      = visitedCount m + 1 := by
  obtain ⟨cx, cy⟩ := c
  rcases mem_unvisited_neighbors hp with ⟨h1, hpe, h3⟩ | ⟨h1, hpe, h3⟩ |
    ⟨h1, hpe, h3⟩ | ⟨h1, hpe, h3⟩ <;> rw [hpe]
  · exact genInv_step_west m s cx cy rest hInv h1 h3
  · exact genInv_step_east m s cx cy rest hInv h1 h3
  · exact genInv_step_north m s cx cy rest hInv h1 h3
  · exact genInv_step_south m s cx cy rest hInv h1 h3

theorem generateLoop_skip_eq (choose : Nat → Nat) (fuel : Nat) (m : Maze)
    (c : Nat × Nat) (rest : List (Nat × Nat))
    (h : m.get_unvisited_neighbors c.1 c.2 = []) :
    Maze.generateLoop choose (fuel + 1) m (c :: rest) =
      Maze.generateLoop choose fuel m rest := by
  rw [Maze.generateLoop, h]

theorem generateLoop_step_eq (choose : Nat → Nat) (fuel : Nat) (m : Maze)
    (c : Nat × Nat) (rest : List (Nat × Nat)) (n0 : Nat × Nat)
    (ns : List (Nat × Nat))
    (h : m.get_unvisited_neighbors c.1 c.2 = n0 :: ns) :
    Maze.generateLoop choose (fuel + 1) m (c :: rest) =
      Maze.generateLoop choose fuel
        ((m.remove_wall c.1 c.2
            ((n0 :: ns).getD (choose fuel % (n0 :: ns).length) (0, 0)).1
            ((n0 :: ns).getD (choose fuel % (n0 :: ns).length) (0, 0)).2
          ).markVisited
            ((n0 :: ns).getD (choose fuel % (n0 :: ns).length) (0, 0)).1
            ((n0 :: ns).getD (choose fuel % (n0 :: ns).length) (0, 0)).2)
        (rest ++ [c, (n0 :: ns).getD (choose fuel % (n0 :: ns).length) (0, 0)]) := by
  rw [Maze.generateLoop, h]

/-- Master lemma: starting from any invariant state with enough fuel, the
loop terminates with an empty frontier, the invariant still holding, and the
dimensions unchanged. -/
theorem generateLoop_spec (choose : Nat → Nat) : ∀ (fuel : Nat) (m : Maze)
    (fr : List (Nat × Nat)) (s : Nat × Nat),
    GenInv m s fr →
    2 * (m.width * m.height - visitedCount m) + fr.length ≤ fuel →
    GenInv (Maze.generateLoop choose fuel m fr).1 s
        (Maze.generateLoop choose fuel m fr).2 ∧
      (Maze.generateLoop choose fuel m fr).2 = [] ∧
      (Maze.generateLoop choose fuel m fr).1.width = m.width ∧
      (Maze.generateLoop choose fuel m fr).1.height = m.height
  | 0, m, fr, s, hInv, hfuel => by
    have hfr : fr = [] := List.length_eq_zero.mp (by omega)
    subst hfr
    exact ⟨hInv, rfl, rfl, rfl⟩
  | fuel + 1, m, [], s, hInv, hfuel => by
    rw [Maze.generateLoop]
    exact ⟨⟨hInv.wf, hInv.sym, hInv.uw, hInv.conn, by intro p hp; simp at hp,
      by intro x y hx hy hv hn; exact hInv.fcov x y hx hy hv hn,
      hInv.vcount, hInv.sxlt, hInv.sylt, hInv.svis⟩, rfl, rfl, rfl⟩
  | fuel + 1, m, c :: rest, s, hInv, hfuel => by
    cases hns : m.get_unvisited_neighbors c.1 c.2 with
    | nil =>
      rw [generateLoop_skip_eq choose fuel m c rest hns]
      have hInv2 := genInv_skip m s c rest hInv hns
      have := generateLoop_spec choose fuel m rest s hInv2
        (by simp only [List.length_cons] at hfuel; omega)
      exact this
    | cons n0 ns =>
      rw [generateLoop_step_eq choose fuel m c rest n0 ns hns]
      have hmem : ((n0 :: ns).getD (choose fuel % (n0 :: ns).length) (0, 0))
          ∈ m.get_unvisited_neighbors c.1 c.2 := by
        rw [hns]
        exact getD_mem _ _ _ (Nat.mod_lt _ (by simp))
      obtain ⟨hInv2, hvc⟩ := genInv_step m s c _ rest hInv hmem
      have hdw : ((m.remove_wall c.1 c.2
          ((n0 :: ns).getD (choose fuel % (n0 :: ns).length) (0, 0)).1
          ((n0 :: ns).getD (choose fuel % (n0 :: ns).length) (0, 0)).2
          ).markVisited
          ((n0 :: ns).getD (choose fuel % (n0 :: ns).length) (0, 0)).1
          ((n0 :: ns).getD (choose fuel % (n0 :: ns).length) (0, 0)).2).width
          = m.width := by
        rw [markVisited_width, remove_wall_width]
      have hdh : ((m.remove_wall c.1 c.2
          ((n0 :: ns).getD (choose fuel % (n0 :: ns).length) (0, 0)).1
          ((n0 :: ns).getD (choose fuel % (n0 :: ns).length) (0, 0)).2
          ).markVisited
          ((n0 :: ns).getD (choose fuel % (n0 :: ns).length) (0, 0)).1
          ((n0 :: ns).getD (choose fuel % (n0 :: ns).length) (0, 0)).2).height
          = m.height := by
        rw [markVisited_height, remove_wall_height]
      have hle := visitedCount_le ((m.remove_wall c.1 c.2
          ((n0 :: ns).getD (choose fuel % (n0 :: ns).length) (0, 0)).1
          ((n0 :: ns).getD (choose fuel % (n0 :: ns).length) (0, 0)).2
          ).markVisited
          ((n0 :: ns).getD (choose fuel % (n0 :: ns).length) (0, 0)).1
          ((n0 :: ns).getD (choose fuel % (n0 :: ns).length) (0, 0)).2)
      rw [hdw, hdh, hvc] at hle
      have hfuel2 : 2 * (m.width * m.height -
          visitedCount ((m.remove_wall c.1 c.2
            ((n0 :: ns).getD (choose fuel % (n0 :: ns).length) (0, 0)).1
            ((n0 :: ns).getD (choose fuel % (n0 :: ns).length) (0, 0)).2
            ).markVisited
            ((n0 :: ns).getD (choose fuel % (n0 :: ns).length) (0, 0)).1
            ((n0 :: ns).getD (choose fuel % (n0 :: ns).length) (0, 0)).2)) +
          (rest ++ [c, (n0 :: ns).getD (choose fuel % (n0 :: ns).length)
            (0, 0)]).length ≤ fuel := by
        rw [hvc, List.length_append]
        simp only [List.length_cons] at hfuel ⊢
        simp only [List.length_nil]
        omega
      have hrec := generateLoop_spec choose fuel _ _ s hInv2
        (by rw [hdw, hdh]; exact hfuel2)
      rw [hdw, hdh] at hrec
      exact hrec

/-- When the frontier is empty, the invariant forces every cell to be
visited: a visited cell with an unvisited grid neighbour would have to be on
the (empty) frontier, so the visited set is closed under grid adjacency and
contains the start cell. -/
theorem all_visited_of_genInv_nil {m : Maze} {s : Nat × Nat}
    (hInv : GenInv m s []) :
    ∀ x y, x < m.width → y < m.height → (m.cellAt x y).visited = true := by
  have hsx := hInv.sxlt
  have hsy := hInv.sylt
  have hstepE : ∀ x y, x < m.width → y < m.height →
      (m.cellAt x y).visited = true → x + 1 < m.width →
      (m.cellAt (x + 1) y).visited = true := by
    intro x y hx hy hv hx1
    cases hvb : (m.cellAt (x + 1) y).visited with
    | true => rfl
    | false =>
      have hne : m.get_unvisited_neighbors x y ≠ [] :=
        unvisited_neighbors_ne_nil.mpr (Or.inr (Or.inl ⟨by omega, hvb⟩))
      exact absurd (hInv.fcov x y hx hy hv hne) (List.not_mem_nil _)
  have hstepW : ∀ x y, x < m.width → y < m.height →
      (m.cellAt x y).visited = true → 0 < x →
      (m.cellAt (x - 1) y).visited = true := by
    intro x y hx hy hv hx0
    cases hvb : (m.cellAt (x - 1) y).visited with
    | true => rfl
    | false =>
      have hne : m.get_unvisited_neighbors x y ≠ [] :=
        unvisited_neighbors_ne_nil.mpr (Or.inl ⟨hx0, hvb⟩)
      exact absurd (hInv.fcov x y hx hy hv hne) (List.not_mem_nil _)
  have hstepS : ∀ x y, x < m.width → y < m.height →
      (m.cellAt x y).visited = true → y + 1 < m.height →
      (m.cellAt x (y + 1)).visited = true := by
    intro x y hx hy hv hy1
    cases hvb : (m.cellAt x (y + 1)).visited with
    | true => rfl
    | false =>
      have hne : m.get_unvisited_neighbors x y ≠ [] :=
        unvisited_neighbors_ne_nil.mpr
          (Or.inr (Or.inr (Or.inr ⟨by omega, hvb⟩)))
      exact absurd (hInv.fcov x y hx hy hv hne) (List.not_mem_nil _)
  have hstepN : ∀ x y, x < m.width → y < m.height →
      (m.cellAt x y).visited = true → 0 < y →
      (m.cellAt x (y - 1)).visited = true := by
    intro x y hx hy hv hy0
    cases hvb : (m.cellAt x (y - 1)).visited with
    | true => rfl
    | false =>
      have hne : m.get_unvisited_neighbors x y ≠ [] :=
        unvisited_neighbors_ne_nil.mpr
          (Or.inr (Or.inr (Or.inl ⟨hy0, hvb⟩)))
      exact absurd (hInv.fcov x y hx hy hv hne) (List.not_mem_nil _)
  have hrow : ∀ x, x < m.width → (m.cellAt x s.2).visited = true := by
    have hup : ∀ d, s.1 + d < m.width →
        (m.cellAt (s.1 + d) s.2).visited = true := by
      intro d
      induction d with
      | zero => intro _; simpa using hInv.svis
      | succ d ih =>
        intro hlt
        have h1 : s.1 + d < m.width := by omega
        have h3 := hstepE (s.1 + d) s.2 h1 hInv.sylt (ih h1) (by omega)
        have he : s.1 + (d + 1) = s.1 + d + 1 := by omega
        rw [he]
        exact h3
    have hdown : ∀ d, d ≤ s.1 →
        (m.cellAt (s.1 - d) s.2).visited = true := by
      intro d
      induction d with
      | zero => intro _; simpa using hInv.svis
      | succ d ih =>
        intro hle
        have h2 := ih (by omega)
        have h3 := hstepW (s.1 - d) s.2 (by omega) hInv.sylt h2 (by omega)
        have he : s.1 - (d + 1) = s.1 - d - 1 := by omega
        rw [he]
        exact h3
    intro x hx
    rcases Nat.le_total s.1 x with hle | hle
    · have he : x = s.1 + (x - s.1) := by omega
      rw [he]
      exact hup (x - s.1) (by omega)
    · have he : x = s.1 - (s.1 - x) := by omega
      rw [he]
      exact hdown (s.1 - x) (by omega)
  intro x y hx hy
  have hbase := hrow x hx
  have hupc : ∀ d, s.2 + d < m.height →
      (m.cellAt x (s.2 + d)).visited = true := by
    intro d
    induction d with
    | zero => intro _; simpa using hbase
    | succ d ih =>
      intro hlt
      have h1 : s.2 + d < m.height := by omega
      have h3 := hstepS x (s.2 + d) hx h1 (ih h1) (by omega)
      have he : s.2 + (d + 1) = s.2 + d + 1 := by omega
      rw [he]
      exact h3
  have hdownc : ∀ d, d ≤ s.2 →
      (m.cellAt x (s.2 - d)).visited = true := by
    intro d
    induction d with
    | zero => intro _; simpa using hbase
    | succ d ih =>
      intro hle
      have h2 := ih (by omega)
      have h3 := hstepN x (s.2 - d) hx (by omega) h2 (by omega)
      have he : s.2 - (d + 1) = s.2 - d - 1 := by omega
      rw [he]
      exact h3
  rcases Nat.le_total s.2 y with hle | hle
  · have he : y = s.2 + (y - s.2) := by omega
    rw [he]
    exact hupc (y - s.2) (by omega)
  · have he : y = s.2 - (s.2 - y) := by omega
    rw [he]
    exact hdownc (s.2 - y) (by omega)

theorem visitedCount_eq_of_all (m : Maze)
    (h : ∀ x y, x < m.width → y < m.height →
      (m.cellAt x y).visited = true) :
    visitedCount m = m.width * m.height := by
  unfold visitedCount
  rw [Finset.filter_true_of_mem, gridPoints, Finset.card_product,
    Finset.card_range, Finset.card_range]
  intro p hp
  simp only [gridPoints, Finset.mem_product, Finset.mem_range] at hp
  exact h p.1 p.2 hp.1 hp.2

/-- Under wall symmetry, a canonical open corridor yields a step through the
facing wall of the source cell, in both directions. -/
theorem OpenStep_of_EdgeOpen {m : Maze} (hsym : WallSym m) {p q : Nat × Nat}
    (h : EdgeOpen m p q) : OpenStep m p q := by
  obtain ⟨hsE, hsS⟩ := hsym
  rcases h with ⟨hq, h1, h2, h3⟩ | ⟨hp, h1, h2, h3⟩ | ⟨hq, h1, h2, h3⟩ |
    ⟨hp, h1, h2, h3⟩
  · subst hq
    exact ⟨by omega, h2, h1, h2, Or.inl ⟨rfl, h3⟩⟩
  · subst hp
    refine ⟨h1, h2, by omega, h2, Or.inr (Or.inl ⟨rfl, ?_⟩)⟩
    rw [← hsE q.1 q.2 h1 h2]
    exact h3
  · subst hq
    exact ⟨h1, by omega, h1, h2, Or.inr (Or.inr (Or.inl ⟨rfl, h3⟩))⟩
  · subst hp
    refine ⟨h1, h2, h1, by omega, Or.inr (Or.inr (Or.inr ⟨rfl, ?_⟩))⟩
    rw [← hsS q.1 q.2 h1 h2]
    exact h3

theorem Maze_new_WF (w h : Nat) : (Maze.new w h).WF := by
  constructor
  · simp [Maze.new]
  · intro i hi
    have hi2 : i < w := hi
    show (((List.range w).map _).getD i []).length = h
    rw [getD_map_range _ _ _ _ hi2]
    simp

theorem cellAt_new (w h x y : Nat) (hx : x < w) (hy : y < h) :
    (Maze.new w h).cellAt x y = Cell.new x y := by
  show (((List.range w).map
    (fun x => (List.range h).map (fun y => Cell.new x y))).getD x []).getD y
      (Cell.new x y) = Cell.new x y
  rw [getD_map_range _ _ _ _ hx, getD_map_range _ _ _ _ hy]

/-- The invariant holds at loop entry: fresh maze, start cell marked
visited, frontier holding exactly the start cell. -/
theorem genInv_init (w h sx sy : Nat) (hsx : sx < w) (hsy : sy < h) :
    GenInv ((Maze.new w h).markVisited sx sy) (sx, sy) [(sx, sy)] := by
  set m0 := (Maze.new w h).markVisited sx sy with hm0
  have hwf0 : m0.WF := WF_markVisited _ _ _ (Maze_new_WF w h)
  have hcell : ∀ x y, x < w → y < h →
      m0.cellAt x y = if x = sx ∧ y = sy then
        { Cell.new x y with visited := true } else Cell.new x y := by
    intro x y hx hy
    by_cases hxy : x = sx ∧ y = sy
    · rw [if_pos hxy, hxy.1, hxy.2, hm0,
        cellAt_markVisited_self _ _ _ (Maze_new_WF w h) hsx hsy,
        cellAt_new w h sx sy hsx hsy]
    · rw [if_neg hxy, hm0, cellAt_markVisited_ne _ _ _ _ _ (by tauto),
        cellAt_new w h x y hx hy]
  have hwalls : ∀ x y, x < w → y < h →
      (m0.cellAt x y).north = true ∧ (m0.cellAt x y).east = true ∧
      (m0.cellAt x y).south = true ∧ (m0.cellAt x y).west = true := by
    intro x y hx hy
    rw [hcell x y hx hy]
    by_cases hxy : x = sx ∧ y = sy
    · rw [if_pos hxy]
      exact ⟨rfl, rfl, rfl, rfl⟩
    · rw [if_neg hxy]
      exact ⟨rfl, rfl, rfl, rfl⟩
  have hvis : ∀ x y, x < w → y < h →
      ((m0.cellAt x y).visited = true ↔ (x = sx ∧ y = sy)) := by
    intro x y hx hy
    rw [hcell x y hx hy]
    by_cases hxy : x = sx ∧ y = sy
    · rw [if_pos hxy]
      simp [hxy]
    · rw [if_neg hxy]
      simp [hxy, Cell.new]
  refine ⟨hwf0, ⟨?_, ?_⟩, ?_, ?_, ?_, ?_, ?_, hsx, hsy, ?_⟩
  · intro x y hxw hyh
    have hxw2 : x + 1 < w := hxw
    have hyh2 : y < h := hyh
    rw [(hwalls x y (by omega) hyh2).2.1,
      (hwalls (x + 1) y hxw2 hyh2).2.2.2]
  · intro x y hxw hyh
    have hxw2 : x < w := hxw
    have hyh2 : y + 1 < h := hyh
    rw [(hwalls x y hxw2 (by omega)).2.2.1,
      (hwalls x (y + 1) hxw2 hyh2).1]
  · intro x y hx hy _
    exact hwalls x y hx hy
  · intro p h1 h2 h3
    have hp := (hvis p.1 p.2 h1 h2).mp h3
    have hpe : p = (sx, sy) := Prod.ext hp.1 hp.2
    rw [hpe]
    exact Relation.ReflTransGen.refl
  · intro p hp
    have hpe : p = (sx, sy) := by simpa using hp
    rw [hpe]
    exact ⟨hsx, hsy, (hvis sx sy hsx hsy).mpr ⟨rfl, rfl⟩⟩
  · intro x y hx hy hv _
    have := (hvis x y hx hy).mp hv
    simp [this.1, this.2]
  · have hfe : (gridPoints m0.width m0.height).filter
        (fun p => (m0.cellAt p.1 p.2).visited = true) = {(sx, sy)} := by
      ext p
      simp only [Finset.mem_filter, gridPoints, Finset.mem_product,
        Finset.mem_range, Finset.mem_singleton]
      constructor
      · rintro ⟨⟨h1, h2⟩, h3⟩
        have := (hvis p.1 p.2 h1 h2).mp h3
        exact Prod.ext this.1 this.2
      · rintro rfl
        exact ⟨⟨hsx, hsy⟩, (hvis sx sy hsx hsy).mpr ⟨rfl, rfl⟩⟩
    have hre : (gridPoints (m0.width - 1) m0.height).filter
        (fun p => (m0.cellAt p.1 p.2).east = false) = ∅ := by
      rw [Finset.filter_eq_empty_iff]
      intro p hp
      simp only [gridPoints, Finset.mem_product, Finset.mem_range] at hp
      have hp1 : p.1 < w - 1 := hp.1
      have hp2 : p.2 < h := hp.2
      rw [(hwalls p.1 p.2 (by omega) hp2).2.1]
      simp
    have hrs : (gridPoints m0.width (m0.height - 1)).filter
        (fun p => (m0.cellAt p.1 p.2).south = false) = ∅ := by
      rw [Finset.filter_eq_empty_iff]
      intro p hp
      simp only [gridPoints, Finset.mem_product, Finset.mem_range] at hp
      have hp1 : p.1 < w := hp.1
      have hp2 : p.2 < h - 1 := hp.2
      rw [(hwalls p.1 p.2 hp1 (by omega)).2.2.1]
      simp
    show visitedCount m0 = removedPairs m0 + 1
    unfold visitedCount removedPairs
    rw [hfe, hre, hrs]
    rfl
  · exact (hvis sx sy hsx hsy).mpr ⟨rfl, rfl⟩

/-- C2: on a fresh `w × h` maze (`w, h ≥ 1`), `generate` — for any start
cell and any sequence of random neighbour choices — produces a maze of the
same dimensions in which wall symmetry holds for every adjacent pair,
exactly `w * h - 1` inter-cell wall pairs are removed, and every cell is
reachable from every other cell through open walls (a spanning tree). -/
theorem generate_spanning_tree (w h sx sy : Nat) (choose : Nat → Nat)
    (hw : 1 ≤ w) (hh : 1 ≤ h) (hsx : sx < w) (hsy : sy < h) :
    ∀ mz, mz = (Maze.new w h).generate sx sy choose →
      mz.width = w ∧ mz.height = h ∧ WallSym mz ∧
      removedPairs mz = w * h - 1 ∧
      (∀ p q : Nat × Nat, p.1 < w → p.2 < h → q.1 < w → q.2 < h →
        Relation.ReflTransGen (OpenStep mz) p q) := by
  intro mz hmz
  have hInv0 := genInv_init w h sx sy hsx hsy
  obtain ⟨hInvF, hfrF, hdwF, hdhF⟩ := generateLoop_spec choose
    (2 * (Maze.new w h).width * (Maze.new w h).height + 1)
    ((Maze.new w h).markVisited sx sy) [(sx, sy)] (sx, sy) hInv0
    (by
      show 2 * (w * h - visitedCount ((Maze.new w h).markVisited sx sy)) + 1
        ≤ 2 * w * h + 1
      have h1 : w * h - visitedCount ((Maze.new w h).markVisited sx sy)
        ≤ w * h := Nat.sub_le _ _
      have h2 : 2 * w * h = 2 * (w * h) := Nat.mul_assoc 2 w h
      omega)
  rw [hfrF] at hInvF
  have hmz2 : mz = (Maze.generateLoop choose
      (2 * (Maze.new w h).width * (Maze.new w h).height + 1)
      ((Maze.new w h).markVisited sx sy) [(sx, sy)]).1 := hmz
  have hwz : mz.width = w := by
    rw [hmz2]
    exact hdwF.trans rfl
  have hhz : mz.height = h := by
    rw [hmz2]
    exact hdhF.trans rfl
  have hInvZ : GenInv mz (sx, sy) [] := by
    rw [hmz2]
    exact hInvF
  have hall : ∀ x y, x < w → y < h → (mz.cellAt x y).visited = true := by
    intro x y hx hy
    exact all_visited_of_genInv_nil hInvZ x y (by omega) (by omega)
  refine ⟨hwz, hhz, hInvZ.sym, ?_, ?_⟩
  · have hvcz : visitedCount mz = w * h := by
      have := visitedCount_eq_of_all mz
        (fun x y hx hy => hall x y (by omega) (by omega))
      rw [hwz, hhz] at this
      exact this
    have := hInvZ.vcount
    omega
  · intro p q hp1 hp2 hq1 hq2
    have hreach_p : Reach mz (sx, sy) p :=
      hInvZ.conn p (by omega) (by omega) (hall p.1 p.2 hp1 hp2)
    have hreach_q : Reach mz (sx, sy) q :=
      hInvZ.conn q (by omega) (by omega) (hall q.1 q.2 hq1 hq2)
    have hreach : Reach mz p q := (Reach_symm hreach_p).trans hreach_q
    exact Relation.ReflTransGen.mono
      (fun a b hab => OpenStep_of_EdgeOpen hInvZ.sym hab) hreach

/-- Witness for C2: a concrete 2×2 maze with a fixed choice stream. -/
theorem generate_spanning_tree_witness :
    ((Maze.new 2 2).generate 0 0 (fun _ => 0)).width = 2 ∧
    ((Maze.new 2 2).generate 0 0 (fun _ => 0)).height = 2 ∧
    WallSym ((Maze.new 2 2).generate 0 0 (fun _ => 0)) ∧
    removedPairs ((Maze.new 2 2).generate 0 0 (fun _ => 0)) = 2 * 2 - 1 ∧
    (∀ p q : Nat × Nat, p.1 < 2 → p.2 < 2 → q.1 < 2 → q.2 < 2 →
      Relation.ReflTransGen
        (OpenStep ((Maze.new 2 2).generate 0 0 (fun _ => 0))) p q) :=
  generate_spanning_tree 2 2 0 0 (fun _ => 0)
    (by decide) (by decide) (by decide) (by decide) _ rfl

end Braid
